import Mathlib

/-!
Verification of the class linking and resolution subsystem
(ClassLinker in runtime/mem_map.h of this repository).

This file gives a shallow embedding, in Lean, of the parts of the
ClassLinker that the specification describes: field layout
(LinkFields, SizeOfClass, LinkFieldsComparator), vtable construction
(LinkVirtualMethods), interface method tables (LinkInterfaceMethods),
the class table (InsertClass, LookupClass, MoveImageClassesToClassTable,
DefineClass), and the error caching protocol (ThrowEarlierClassFailure,
EnsureResolved, InitializeClass, WrapExceptionInInitializer).

Machine integers are modelled as Nat with explicit reductions modulo
powers of two where the code masks or can overflow.  C++ functions are
translated to executable Lean functions; stateful code is modelled by
explicit state passing; fallible code returns Except or Option.
-/

/- ===================================================================
   Strings: strcmp-style lexicographic comparison used by
   LinkFieldsComparator (strcmp(name1, name2) < 0).
   =================================================================== -/

/-- Lexicographic strict comparison of character lists, mirroring a
byte-wise strcmp: a proper prefix is smaller, otherwise the first
differing character decides. -/
def charListLt : List Char → List Char → Bool
  | [], [] => false
  | [], _ :: _ => true
  | _ :: _, [] => false
  | c :: cs, d :: ds =>
    if c.toNat < d.toNat then true
    else if d.toNat < c.toNat then false
    else charListLt cs ds

/-- The strcmp(a, b) < 0 test on strings. -/
def strLt (a b : String) : Bool := charListLt a.data b.data

/- ===================================================================
   Field model (mirror::ArtField as relevant to field layout).
   Primitive::Type as used by FieldHelper::GetTypeAsPrimitiveType.
   =================================================================== -/

/-- The Primitive::Type enumeration cases that classify a field for
layout: kPrimNot means a non-primitive, i.e. object reference, type. -/
inductive Primitive where
  | kPrimNot
  | kPrimBoolean
  | kPrimByte
  | kPrimChar
  | kPrimShort
  | kPrimInt
  | kPrimLong
  | kPrimFloat
  | kPrimDouble
deriving DecidableEq, Repr

/-- A field as seen by LinkFields: its name (from FieldHelper::GetName)
and its primitive type (from GetTypeAsPrimitiveType). -/
structure ArtField where
  name : String
  fieldType : Primitive
deriving DecidableEq, Repr

/-- is_primitive computation of LinkFieldsComparator:
type != Primitive::kPrimNot. -/
def isPrimitiveType (t : Primitive) : Bool := t ≠ Primitive.kPrimNot

/-- is64bit computation of LinkFieldsComparator:
type == kPrimLong or type == kPrimDouble. -/
def is64bitType (t : Primitive) : Bool :=
  t = Primitive.kPrimLong || t = Primitive.kPrimDouble

/-- The bucket order computed by LinkFieldsComparator:
0 for references, 1 for 64-bit primitives, 2 for 32-bit primitives. -/
def fieldOrder (f : ArtField) : Nat :=
  if isPrimitiveType f.fieldType = false then 0
  else if is64bitType f.fieldType then 1 else 2

/-- LinkFieldsComparator::operator(): when the two types differ and
their bucket orders differ, compare the bucket orders; otherwise
compare the field names with strcmp. -/
def fieldLt (f1 f2 : ArtField) : Bool :=
  if f1.fieldType ≠ f2.fieldType ∧ fieldOrder f1 ≠ fieldOrder f2 then
    decide (fieldOrder f1 < fieldOrder f2)
  else
    strLt f1.name f2.name

/-- The non-strict order induced by the comparator: a comes no later
than b when the comparator does not put b strictly before a.  A stable
sort with this relation is an admissible model of std::sort with the
strict comparator fieldLt. -/
def fieldLe (a b : ArtField) : Prop := fieldLt b a = false

instance : DecidableRel fieldLe := fun a b => by
  unfold fieldLe; infer_instance

/-- The field sort performed by LinkFields:
std::sort(grouped_and_sorted_fields, LinkFieldsComparator()), modelled
as a deterministic stable sort with the same comparator. -/
def sortFields (l : List ArtField) : List ArtField :=
  List.insertionSort fieldLe l

/- ===================================================================
   ClassLinker::LinkFields (field layout engine).
   =================================================================== -/

/-- The reference-field phase of LinkFields: each leading field is
assigned the running offset and the offset advances by
sizeof(uint32_t) = 4. -/
def layoutReferenceFields (off : Nat) :
    List ArtField → List (ArtField × Nat) × Nat
  | [] => ([], off)
  | f :: fs =>
    let rest := layoutReferenceFields (off + 4) fs
    ((f, off) :: rest.1, rest.2)

/-- The padding scavenge of LinkFields: walk the remaining (primitive)
fields in order, skip kPrimLong and kPrimDouble, and remove the first
32-bit field found, returning it together with the remaining fields in
their original order. -/
def scavenge32 : List ArtField → Option (ArtField × List ArtField)
  | [] => none
  | f :: fs =>
    if is64bitType f.fieldType then
      match scavenge32 fs with
      | none => none
      | some (w, rest) => some (w, f :: rest)
    else
      some (f, fs)

/-- The final phase of LinkFields: assign the running offset to every
remaining field, advancing by sizeof(uint64_t) = 8 for kPrimLong and
kPrimDouble and by sizeof(uint32_t) = 4 otherwise. -/
def layoutRemainingFields (off : Nat) :
    List ArtField → List (ArtField × Nat) × Nat
  | [] => ([], off)
  | f :: fs =>
    let sz : Nat := if is64bitType f.fieldType then 8 else 4
    let rest := layoutRemainingFields (off + sz) fs
    ((f, off) :: rest.1, rest.2)

/-- The descriptor of the type whose referent field is hidden from the
GC by LinkFields. -/
def javaLangRefReference : String := "Ljava/lang/ref/Reference;"

/-- The outputs of LinkFields: the fields array in its final order with
the byte offset assigned to each field, the recorded reference field
count, and the recorded total size (object footprint for instance
fields, class size for static fields). -/
structure LinkFieldsResult where
  fields : List (ArtField × Nat)
  numReferenceFields : Nat
  size : Nat
deriving DecidableEq, Repr

/-- ClassLinker::LinkFields.  baseOffset stands for the initial
field_offset: mirror::Class::FieldsOffset() when is_static, and the
object size of the superclass (or 0) otherwise; descriptor is the
descriptor of the class being laid out.  The fields are sorted with
LinkFieldsComparator, the leading reference fields get consecutive
4-byte slots, then, if primitive fields remain at an offset that is
not 8-byte aligned, one 32-bit field is scavenged into the gap (or the
offset is padded by 4 when none exists), and the remaining fields are
assigned in order.  The referent field of Ljava/lang/ref/Reference; is
excluded from the recorded reference count. -/
def linkFields (isStatic : Bool) (descriptor : String) (baseOffset : Nat)
    (fields : List ArtField) : LinkFieldsResult :=
  let sorted := sortFields fields
  let refs := sorted.takeWhile (fun f => isPrimitiveType f.fieldType = false)
  let prims := sorted.dropWhile (fun f => isPrimitiveType f.fieldType = false)
  let refPhase := layoutReferenceFields baseOffset refs
  let offAfterRefs := refPhase.2
  let padPhase :
      List (ArtField × Nat) × Nat × List ArtField :=
    if prims ≠ [] ∧ offAfterRefs % 8 ≠ 0 then
      match scavenge32 prims with
      | some (w, rest) => ([(w, offAfterRefs)], offAfterRefs + 4, rest)
      | none => ([], offAfterRefs + 4, prims)
    else
      ([], offAfterRefs, prims)
  let tailPhase := layoutRemainingFields padPhase.2.1 padPhase.2.2
  let numRef :=
    if isStatic = false ∧ descriptor = javaLangRefReference then
      refs.length - 1
    else
      refs.length
  { fields := refPhase.1 ++ padPhase.1 ++ tailPhase.1
    numReferenceFields := numRef
    size := tailPhase.2 }

/-- Consecutive offset assignment used to state layout theorems: the
first field gets start, and each following field gets an offset larger
by step. -/
def withOffsets (start step : Nat) : List ArtField → List (ArtField × Nat)
  | [] => []
  | f :: fs => (f, start) :: withOffsets (start + step) step fs

/- ===================================================================
   ClassLinker::SizeOfClass (precomputed class object size).
   =================================================================== -/

/-- ClassLinker::SizeOfClass: a bucket-count scan over the static
fields of the class data.  In the source the buckets are decided by
the first character of the field type descriptor; that character
corresponds exactly to the Primitive type of the field: L and [ to
kPrimNot, J to kPrimLong, D to kPrimDouble, and the remaining
single-character codes to 32-bit primitives.  headerSize stands for
sizeof(mirror::Class). -/
def sizeOfClass (headerSize : Nat) (staticFields : List ArtField) : Nat :=
  let numRef := (staticFields.filter
    (fun f => ! isPrimitiveType f.fieldType)).length
  let num64 := (staticFields.filter
    (fun f => isPrimitiveType f.fieldType && is64bitType f.fieldType)).length
  let num32 := (staticFields.filter
    (fun f => isPrimitiveType f.fieldType && ! is64bitType f.fieldType)).length
  let size0 := headerSize + numRef * 4
  let aligned :
      Nat × Nat :=
    if num64 ≠ 0 ∧ size0 % 8 ≠ 0 then
      (size0 + 4, if num32 ≠ 0 then num32 - 1 else num32)
    else
      (size0, num32)
  aligned.1 + num64 * 8 + aligned.2 * 4

/-- The reference bucket of the sorted field list: the fields the
comparator groups first. -/
def refBucket (fields : List ArtField) : List ArtField :=
  (sortFields fields).filter (fun f => decide (fieldOrder f = 0))

/-- The 64-bit-primitive bucket of the sorted field list. -/
def longBucket (fields : List ArtField) : List ArtField :=
  (sortFields fields).filter (fun f => decide (fieldOrder f = 1))

/-- The 32-bit-primitive bucket of the sorted field list. -/
def wordBucket (fields : List ArtField) : List ArtField :=
  (sortFields fields).filter (fun f => decide (fieldOrder f = 2))

/- ===================================================================
   Method model (mirror::ArtMethod as relevant to method linking).
   =================================================================== -/

/-- A method as seen by the method table builder: its name plus
signature (the key compared by MethodHelper::HasSameNameAndSignature),
the access properties consulted during linking (IsPublic, IsFinal,
IsAbstract, the kAccMiranda flag), the method index within the vtable
(SetMethodIndex / GetMethodIndex), and the dex method index
(GetDexMethodIndex).  An identity number distinguishes distinct method
objects that happen to agree on the other attributes. -/
structure ArtMethod where
  nameSig : String
  isPublic : Bool
  isFinal : Bool
  isAbstract : Bool
  isMiranda : Bool
  methodIndex : Nat
  dexMethodIndex : Nat
  methodId : Nat
deriving DecidableEq, Repr

/-- MethodHelper::HasSameNameAndSignature. -/
def hasSameNameAndSignature (a b : ArtMethod) : Bool :=
  a.nameSig = b.nameSig

/-- ArtMethod::SetMethodIndex. -/
def setMethodIndex (m : ArtMethod) (i : Nat) : ArtMethod :=
  { m with methodIndex := i }

/-- The errors thrown by the method table builder: ThrowLinkageError on
overriding a final method, ThrowClassFormatError when the vtable
exceeds the 16-bit index space, ThrowIllegalAccessError when an
interface implementation is neither public nor abstract. -/
inductive LinkError where
  | linkageError
  | classFormatError
  | illegalAccessError
deriving DecidableEq, Repr

/- ===================================================================
   ClassLinker::LinkVirtualMethods.
   =================================================================== -/

/-- The inner loop of LinkVirtualMethods for one declared virtual
method: scan the vtable upward from slot 0; at the first slot whose
method has the same name and signature and whose override is
access-permitted (CanAccessMember), fail with a LinkageError if that
method is final and otherwise report the slot; a name-and-signature
match that is not access-permitted only logs a warning and the scan
continues. -/
def linkVirtualScan (canAccess : ArtMethod → Bool) (m : ArtMethod) :
    List ArtMethod → Nat → Except LinkError (Option Nat)
  | [], _ => .ok none
  | sm :: rest, j =>
    if hasSameNameAndSignature m sm then
      if canAccess sm then
        if sm.isFinal then .error .linkageError
        else .ok (some j)
      else linkVirtualScan canAccess m rest (j + 1)
    else linkVirtualScan canAccess m rest (j + 1)

/-- The body of the LinkVirtualMethods loop for one declared virtual
method: if the scan finds an access-permitted match at slot j, the
local method overwrites slot j in place and its method index is set to
j; otherwise it is appended at a fresh slot at the end of the table
with its method index set to that slot. -/
def linkVirtualStep (canAccess : ArtMethod → Bool)
    (vtable : List ArtMethod) (m : ArtMethod) :
    Except LinkError (List ArtMethod) :=
  match linkVirtualScan canAccess m vtable 0 with
  | .error e => .error e
  | .ok (some j) => .ok (vtable.set j (setMethodIndex m j))
  | .ok none => .ok (vtable ++ [setMethodIndex m vtable.length])

/-- The LinkVirtualMethods loop over all declared virtual methods. -/
def linkVirtualFold (canAccess : ArtMethod → Bool)
    (vtable : List ArtMethod) :
    List ArtMethod → Except LinkError (List ArtMethod)
  | [] => .ok vtable
  | m :: ms =>
    match linkVirtualStep canAccess vtable m with
    | .error e => .error e
    | .ok vtable2 => linkVirtualFold canAccess vtable2 ms

/-- The root-class branch of LinkVirtualMethods (klass has no
superclass): a fresh vtable from only the declared virtual methods,
slot i receiving the i-th method with method index i masked to 16 bits
(i & 0xFFFF, written i % 65536). -/
def rootVtable (i : Nat) : List ArtMethod → List ArtMethod
  | [] => []
  | m :: ms => setMethodIndex m (i % 65536) :: rootVtable (i + 1) ms

/-- ClassLinker::LinkVirtualMethods.  For a class with a superclass the
inherited vtable is copied and extended by the loop above, then
checked against the 16-bit index space (IsUint(16, actual_count));
the root class builds a fresh vtable after the same check. -/
def linkVirtualMethods (canAccess : ArtMethod → Bool)
    (superVtable : Option (List ArtMethod))
    (virtuals : List ArtMethod) : Except LinkError (List ArtMethod) :=
  match superVtable with
  | some sv =>
    match linkVirtualFold canAccess sv virtuals with
    | .error e => .error e
    | .ok vt => if vt.length < 65536 then .ok vt else .error .classFormatError
  | none =>
    if virtuals.length < 65536 then .ok (rootVtable 0 virtuals)
    else .error .classFormatError

/-- Modelled from the spec: the claim that the inherited vtable is
scanned FROM THE END for an override match.  The suffix of the table is
examined before the current slot, so the access-permitted match with
the highest slot number decides. -/
def linkVirtualScanFromEnd (canAccess : ArtMethod → Bool) (m : ArtMethod) :
    List ArtMethod → Nat → Except LinkError (Option Nat)
  | [], _ => .ok none
  | sm :: rest, j =>
    match linkVirtualScanFromEnd canAccess m rest (j + 1) with
    | .error e => .error e
    | .ok (some k) => .ok (some k)
    | .ok none =>
      if hasSameNameAndSignature m sm then
        if canAccess sm then
          if sm.isFinal then .error .linkageError
          else .ok (some j)
        else .ok none
      else .ok none

/-- Modelled from the spec: the per-method step as the claim states it,
with the override scan running from the end of the inherited table. -/
def linkVirtualStepFromEnd (canAccess : ArtMethod → Bool)
    (vtable : List ArtMethod) (m : ArtMethod) :
    Except LinkError (List ArtMethod) :=
  match linkVirtualScanFromEnd canAccess m vtable 0 with
  | .error e => .error e
  | .ok (some j) => .ok (vtable.set j (setMethodIndex m j))
  | .ok none => .ok (vtable ++ [setMethodIndex m vtable.length])

/- ===================================================================
   ClassLinker::LinkInterfaceMethods (interface tables and imt).
   =================================================================== -/

/-- The backward vtable search of LinkInterfaceMethods: for an
interface method, walk the vtable from the last slot toward slot 0 and
return the first method with the same name and signature, favoring the
most-derived definition.  Returns the slot and the method found. -/
def vtableBackSearch (im : ArtMethod) :
    List ArtMethod → Option (Nat × ArtMethod)
  | [] => none
  | vm :: rest =>
    match vtableBackSearch im rest with
    | some (k, m) => some (k + 1, m)
    | none =>
      if hasSameNameAndSignature im vm then some (0, vm) else none

/-- The mutable state threaded through the interface-method loop of
LinkInterfaceMethods: the interface method table under construction
(NULL entries are none), the imtable_changed flag, and the list of
synthesized miranda methods. -/
structure IfBuildState where
  imt : List (Option ArtMethod)
  imtChanged : Bool
  mirandas : List ArtMethod
deriving DecidableEq, Repr

/-- Processing of one interface method of one interface in
LinkInterfaceMethods: search the vtable backward for an implementation;
a found implementation must be public or abstract (else
IllegalAccessError) and is installed into the imt at slot
dexMethodIndex % kImtSize — into an empty slot directly, while a
collision on an occupied slot installs the conflict sentinel; with no
implementation, reuse a matching already-synthesized miranda method or
clone the interface method as a new one.  Returns the new state and
the entry recorded in the method array of the interface. -/
def processIfaceMethod (kImtSize : Nat) (conflict : ArtMethod)
    (vtable : List ArtMethod) (st : IfBuildState) (im : ArtMethod) :
    Except LinkError (IfBuildState × ArtMethod) :=
  match vtableBackSearch im vtable with
  | some (_, vm) =>
    if vm.isAbstract = false ∧ vm.isPublic = false then
      .error .illegalAccessError
    else
      let imtIndex := im.dexMethodIndex % kImtSize
      match st.imt.getD imtIndex none with
      | none =>
        .ok ({ st with imt := st.imt.set imtIndex (some vm),
                       imtChanged := true }, vm)
      | some _ =>
        .ok ({ st with imt := st.imt.set imtIndex (some conflict) }, vm)
  | none =>
    match st.mirandas.find? (fun mm => hasSameNameAndSignature im mm) with
    | some mm => .ok (st, mm)
    | none => .ok ({ st with mirandas := st.mirandas ++ [im] }, im)

/-- The loop of LinkInterfaceMethods over the virtual methods of one
interface, collecting the method array of that interface. -/
def processIfaceMethods (kImtSize : Nat) (conflict : ArtMethod)
    (vtable : List ArtMethod) (st : IfBuildState) :
    List ArtMethod → Except LinkError (IfBuildState × List ArtMethod)
  | [] => .ok (st, [])
  | im :: ims =>
    match processIfaceMethod kImtSize conflict vtable st im with
    | .error e => .error e
    | .ok (st2, entry) =>
      match processIfaceMethods kImtSize conflict vtable st2 ims with
      | .error e => .error e
      | .ok (st3, entries) => .ok (st3, entry :: entries)

/-- The loop of LinkInterfaceMethods over the flattened interface
table; interfaces with no virtual methods get no method array. -/
def processIfTable (kImtSize : Nat) (conflict : ArtMethod)
    (vtable : List ArtMethod) (st : IfBuildState) :
    List (List ArtMethod) →
    Except LinkError (IfBuildState × List (List ArtMethod))
  | [] => .ok (st, [])
  | ms :: rest =>
    match
      (if ms.isEmpty then .ok (st, none)
       else
         match processIfaceMethods kImtSize conflict vtable st ms with
         | .error e => .error e
         | .ok (st2, entries) => .ok (st2, some entries) :
        Except LinkError (IfBuildState × Option (List ArtMethod)))
    with
    | .error e => .error e
    | .ok (st2, arr) =>
      match processIfTable kImtSize conflict vtable st2 rest with
      | .error e => .error e
      | .ok (st3, arrs) =>
        .ok (st3, match arr with | none => arrs | some a => a :: arrs)

/-- The miranda-append epilogue of LinkInterfaceMethods: each
synthesized miranda method receives the kAccMiranda flag and the
method index 0xFFFF & (old vtable length + position), written as a
reduction modulo 65536, and is appended to the vtable (and to the
virtual method list). -/
def appendMirandas (startIndex : Nat) : List ArtMethod → List ArtMethod
  | [] => []
  | m :: ms =>
    { m with isMiranda := true, methodIndex := startIndex % 65536 } ::
      appendMirandas (startIndex + 1) ms

/-- The outputs of LinkInterfaceMethods relevant here: the final
vtable, the extended virtual method list, the final interface method
table of the class (fixed size kImtSize), and the per-interface method
arrays. -/
structure IfLinkResult where
  vtable : List ArtMethod
  virtuals : List ArtMethod
  imt : List ArtMethod
  methodArrays : List (List ArtMethod)
deriving DecidableEq, Repr

/-- The vtable-facing part of ClassLinker::LinkInterfaceMethods, from
the imtable allocation onward (the flattening of the transitive
interface closure that precedes it is summarized by the iftable
argument, the flattened list of the virtual methods of each
interface).  The imt starts empty; after the loop, when any entry was
installed, the empty entries are filled with the conflict sentinel and
the table replaces the default imt of the class, which is itself all
conflicts. -/
def linkInterfaceMethods (kImtSize : Nat) (conflict : ArtMethod)
    (iftable : List (List ArtMethod))
    (vtable virtuals : List ArtMethod) : Except LinkError IfLinkResult :=
  let st0 : IfBuildState :=
    { imt := List.replicate kImtSize none, imtChanged := false,
      mirandas := [] }
  match processIfTable kImtSize conflict vtable st0 iftable with
  | .error e => .error e
  | .ok (st, arrays) =>
    let mirandaFixed := appendMirandas vtable.length st.mirandas
    let imtFinal :=
      if st.imtChanged then st.imt.map (fun o => o.getD conflict)
      else List.replicate kImtSize conflict
    .ok { vtable := vtable ++ mirandaFixed,
          virtuals := virtuals ++ mirandaFixed,
          imt := imtFinal,
          methodArrays := arrays }

/-- The imt installs performed by LinkInterfaceMethods on a given
vtable and flattened interface table: one install per interface method
whose backward vtable search succeeds, keyed by the dex method index
of the interface method. -/
def imtInstalls (vtable : List ArtMethod)
    (iftable : List (List ArtMethod)) : List (Nat × ArtMethod) :=
  iftable.flatten.filterMap
    (fun im => (vtableBackSearch im vtable).map
      (fun p => (im.dexMethodIndex, p.2)))

/-- The final content of one imt slot as a function of the install
sequence that targeted it: no writer leaves the conflict sentinel (the
default), a single writer wins the slot, two or more writers leave the
conflict sentinel. -/
def slotOutcome (conflict : ArtMethod) :
    List (Nat × ArtMethod) → ArtMethod
  | [] => conflict
  | [w] => w.2
  | _ :: _ :: _ => conflict

/- ===================================================================
   Class status, class table, and the error caching protocol.
   =================================================================== -/

/-- Modelled from the spec: the mirror::Class::Status enumeration (its
definition lives in a header outside this core).  Per the spec the
statuses are strictly ordered Idx to Initialized with Error as a
terminal state below all of them; the numeric ranks follow the
lifecycle order with Error ranked below NotReady. -/
inductive ClassStatus where
  | kStatusError
  | kStatusNotReady
  | kStatusIdx
  | kStatusLoaded
  | kStatusResolved
  | kStatusVerifying
  | kStatusRetryVerificationAtRuntime
  | kStatusVerifyingAtRuntime
  | kStatusVerified
  | kStatusInitializing
  | kStatusInitialized
deriving DecidableEq, Repr

/-- Modelled from the spec: numeric rank of a status, Error below all
other statuses. -/
def statusRank : ClassStatus → Int
  | .kStatusError => -1
  | .kStatusNotReady => 0
  | .kStatusIdx => 1
  | .kStatusLoaded => 2
  | .kStatusResolved => 3
  | .kStatusVerifying => 4
  | .kStatusRetryVerificationAtRuntime => 5
  | .kStatusVerifyingAtRuntime => 6
  | .kStatusVerified => 7
  | .kStatusInitializing => 8
  | .kStatusInitialized => 9

/-- Modelled from the spec: mirror::Class::IsErroneous. -/
def isErroneousStatus (s : ClassStatus) : Bool := s = ClassStatus.kStatusError

/-- Modelled from the spec: mirror::Class::IsResolved — the status has
reached Resolved (Error, ranked below, is not resolved). -/
def isResolvedStatus (s : ClassStatus) : Bool :=
  statusRank ClassStatus.kStatusResolved ≤ statusRank s

/-- A class as seen by the class table and the resolution state
machine: descriptor, defining loader (none is the bootstrap loader),
status, the recorded verify-error class descriptor if any, the thread
id recorded by SetClinitThreadId, and an identity number
distinguishing distinct class objects. -/
structure RClass where
  descriptor : String
  loader : Option Nat
  status : ClassStatus
  verifyErrorClass : Option String
  clinitThreadId : Nat
  classId : Nat
deriving DecidableEq, Repr

/-- The Hash function over descriptors (the java.lang.String hash),
computed in size_t arithmetic, hence reduced modulo 2^64. -/
def stringHash (s : String) : Nat :=
  s.data.foldl (fun h c => (h * 31 + c.toNat) % (2 ^ 64)) 0

/-- The class table: a multimap from descriptor hash to class objects,
modelled as an association list in insertion order. -/
abbrev ClassTable := List (Nat × RClass)

/-- ClassLinker::LookupClassFromTableLocked: scan the entries whose key
equals the hash and return the first class with the given defining
loader and descriptor. -/
def lookupClassFromTableLocked (descriptor : String) (loader : Option Nat)
    (hash : Nat) (table : ClassTable) : Option RClass :=
  (table.find? (fun e =>
    e.1 = hash ∧ e.2.loader = loader ∧ e.2.descriptor = descriptor)).map
    (fun e => e.2)

/-- ClassLinker::InsertClass: under the writer lock, re-check for an
entry with the same descriptor and loader; on a hit return the
existing class without mutating the table, otherwise insert the given
class and return NULL (here none). -/
def insertClass (descriptor : String) (klass : RClass) (hash : Nat)
    (table : ClassTable) : Option RClass × ClassTable :=
  match lookupClassFromTableLocked descriptor klass.loader hash table with
  | some existing => (some existing, table)
  | none => (none, table ++ [(hash, klass)])

/-- An exception recorded on the calling thread, by the descriptor of
its class and a detail string. -/
structure ThrownException where
  exceptionClass : String
  detail : String
deriving DecidableEq, Repr

/-- ThrowEarlierClassFailure: for a class already marked Error, throw
an exception of the recorded verify-error class when one is recorded,
and a fresh NoClassDefFoundError otherwise; no linking step re-runs. -/
def throwEarlierClassFailure (c : RClass) : ThrownException :=
  match c.verifyErrorClass with
  | some ve => { exceptionClass := ve, detail := c.descriptor }
  | none =>
    { exceptionClass := "Ljava/lang/NoClassDefFoundError;",
      detail := c.descriptor }

/-- The possible outcomes of EnsureResolved: return the resolved class,
throw (returning nullptr), or block waiting for the thread whose
resolution of the class is in flight. -/
inductive EnsureResolvedOutcome where
  | returns (c : RClass)
  | throws (e : ThrownException)
  | waitsForOtherThread
deriving DecidableEq, Repr

/-- EnsureResolved: a class neither resolved nor erroneous makes the
caller detect an initializer-thread self-wait (ClassCircularityError,
status set to Error) or block until the in-flight resolution finishes;
an erroneous class has its earlier failure rethrown by
ThrowEarlierClassFailure; a resolved class is returned unchanged. -/
def ensureResolved (selfTid : Nat) (c : RClass) :
    EnsureResolvedOutcome × RClass :=
  if isResolvedStatus c.status = false ∧ isErroneousStatus c.status = false
  then
    if c.clinitThreadId = selfTid then
      (.throws { exceptionClass := "Ljava/lang/ClassCircularityError;",
                 detail := c.descriptor },
       { c with status := .kStatusError })
    else
      (.waitsForOtherThread, c)
  else if isErroneousStatus c.status then
    (.throws (throwEarlierClassFailure c), c)
  else
    (.returns c, c)

/-- The insertion step of ClassLinker::DefineClass: insert the freshly
loaded class into the class table; if a concurrent definer already
inserted an equal-descriptor-and-loader class, the new object is
discarded and EnsureResolved runs on the existing one. -/
def defineClassInsert (selfTid : Nat) (table : ClassTable)
    (klass : RClass) : EnsureResolvedOutcome × ClassTable :=
  match insertClass klass.descriptor klass (stringHash klass.descriptor)
      table with
  | (some existing, t) => ((ensureResolved selfTid existing).1, t)
  | (none, t) => (.returns klass, t)

/-- The outcome of the entry checks of InitializeClass: either the call
is decided immediately (returning the boolean with a possibly thrown
exception), or initialization proceeds past the checks. -/
inductive InitEntryOutcome where
  | done (success : Bool) (thrown : Option ThrownException)
  | proceeds
deriving DecidableEq, Repr

/-- The entry checks of ClassLinker::InitializeClass, for a caller
allowed to run statics and parents (can_init_statics and
can_init_parents both true, whence CanWeInitializeClass returns true
immediately): an initialized class returns true; under the per-class
lock, a class already found erroneous has its earlier failure rethrown
by ThrowEarlierClassFailure and the call returns false with the class
left in Error; otherwise initialization proceeds. -/
def initializeClassEntry (c : RClass) : InitEntryOutcome × RClass :=
  if c.status = .kStatusInitialized then (.done true none, c)
  else if isErroneousStatus c.status then
    (.done false (some (throwEarlierClassFailure c)), c)
  else
    (.proceeds, c)

/- ===================================================================
   WrapExceptionInInitializer and the InitializeClass epilogue.
   =================================================================== -/

/-- A throwable as relevant to WrapExceptionInInitializer: either a
plain throwable that is or is not an instance of java.lang.Error, or
an ExceptionInInitializerError wrapping its cause (itself an Error
subtype). -/
inductive JThrowable where
  | plain (isErrorSubtype : Bool) (throwId : Nat)
  | exceptionInInitializerError (cause : JThrowable)
deriving DecidableEq, Repr

/-- The IsInstanceOf(cause, java.lang.Error) test of
WrapExceptionInInitializer; ExceptionInInitializerError is itself an
Error subtype. -/
def isErrorInstance : JThrowable → Bool
  | .plain b _ => b
  | .exceptionInInitializerError _ => true

/-- WrapExceptionInInitializer: only non-Error exceptions are wrapped
in an ExceptionInInitializerError with the original as cause; an Error
is used as-is. -/
def wrapExceptionInInitializer (e : JThrowable) : JThrowable :=
  if isErrorInstance e then e else .exceptionInInitializerError e

/-- The epilogue of InitializeClass after the static initializer ran:
with a pending exception the exception is wrapped (unless an Error),
the class status is set to Error, and the call fails; otherwise the
status is set to Initialized and the call succeeds. -/
def initializeClassEpilogue (pending : Option JThrowable) (c : RClass) :
    RClass × Bool × Option JThrowable :=
  match pending with
  | some e =>
    ({ c with status := .kStatusError }, false,
     some (wrapExceptionInInitializer e))
  | none =>
    ({ c with status := .kStatusInitialized }, true, none)

/- ===================================================================
   ClassLinker::LookupClass and the bootstrap-image fallback.
   =================================================================== -/

/-- kMaxFailedDexCacheLookups from ClassLinker::LookupClass. -/
def kMaxFailedDexCacheLookups : Nat := 1000

/-- The state of the class linker relevant to LookupClass: the class
table, the dex_cache_image_class_lookup_required_ flag, the
failed_dex_cache_class_lookups_ counter, and the classes resolvable
from the bootstrap image dex caches (all with the bootstrap loader). -/
structure ClassLinkerState where
  classTable : ClassTable
  imageLookupRequired : Bool
  failedLookups : Nat
  imageClasses : List RClass
deriving Repr

/-- ClassLinker::LookupClassFromImage: scan the image dex caches for a
resolved class with the given descriptor. -/
def lookupClassFromImage (descriptor : String)
    (image : List RClass) : Option RClass :=
  image.find? (fun c => c.descriptor = descriptor)

/-- ClassLinker::MoveImageClassesToClassTable: under the writer lock,
when the image lookup is still required, insert every image class not
already present into the class table and clear the flag. -/
def moveImageClassesToClassTable (st : ClassLinkerState) :
    ClassLinkerState :=
  if st.imageLookupRequired = false then st
  else
    { st with
      classTable := st.imageClasses.foldl
        (fun t k =>
          match lookupClassFromTableLocked k.descriptor none
              (stringHash k.descriptor) t with
          | some _ => t
          | none => t ++ [(stringHash k.descriptor, k)]) st.classTable,
      imageLookupRequired := false }

/-- ClassLinker::LookupClass: a hit in the class table is returned
directly; a miss with a non-null loader, or with the image lookup no
longer required, returns NULL; otherwise the bootstrap image is
scanned — a found class is inserted into the table and returned, and a
miss increments the failure counter, migrating all image classes into
the table once the counter exceeds kMaxFailedDexCacheLookups. -/
def lookupClass (descriptor : String) (loader : Option Nat)
    (st : ClassLinkerState) : Option RClass × ClassLinkerState :=
  let hash := stringHash descriptor
  match lookupClassFromTableLocked descriptor loader hash st.classTable with
  | some result => (some result, st)
  | none =>
    if loader ≠ none ∨ st.imageLookupRequired = false then (none, st)
    else
      match lookupClassFromImage descriptor st.imageClasses with
      | some result =>
        (some result,
         { st with
           classTable := (insertClass descriptor result hash
             st.classTable).2 })
      | none =>
        let st2 := { st with failedLookups := st.failedLookups + 1 }
        if st2.failedLookups > kMaxFailedDexCacheLookups then
          (none, moveImageClassesToClassTable st2)
        else
          (none, st2)

/- ===================================================================
   Vocabulary used by the statements of the theorems below.
   =================================================================== -/

/-- Name order between fields: the name of a comes no later than the
name of b under strcmp. -/
def fieldNameLe (a b : ArtField) : Prop := strLt b.name a.name = false

/-- The slot-index invariant of a vtable: the method stored at slot i
carries method index i, except that a synthesized miranda method
carries i masked to 16 bits. -/
def VtableInv (vt : List ArtMethod) : Prop :=
  ∀ i, (h : i < vt.length) →
    ((vt.get ⟨i, h⟩).isMiranda = true →
      (vt.get ⟨i, h⟩).methodIndex = i % 65536) ∧
    ((vt.get ⟨i, h⟩).isMiranda = false →
      (vt.get ⟨i, h⟩).methodIndex = i)

/-- One imt write as performed by LinkInterfaceMethods: an empty slot
receives the method, an occupied slot receives the conflict
sentinel. -/
def imtApplyWriter (conflict : ArtMethod) (cur : Option ArtMethod)
    (w : ArtMethod) : Option ArtMethod :=
  match cur with
  | none => some w
  | some _ => some conflict

/-- The content of an imt slot after a sequence of writes starting from
a given content. -/
def imtFoldWriters (conflict : ArtMethod) (ws : List (Nat × ArtMethod))
    (cur : Option ArtMethod) : Option ArtMethod :=
  ws.foldl (fun c w => imtApplyWriter conflict c w.2) cur

/-- The induction invariant for the imt construction: after processing
a prefix contributing the install list ps, the imt has its fixed
length, each slot holds the fold of the writers that targeted it, and
the changed flag records whether any install happened. -/
def ImtInv (kImtSize : Nat) (conflict : ArtMethod)
    (ps : List (Nat × ArtMethod)) (st : IfBuildState) : Prop :=
  st.imt.length = kImtSize ∧
  (∀ s, s < kImtSize →
    st.imt.getD s none =
      imtFoldWriters conflict (ps.filter (fun w => w.1 % kImtSize = s)) none) ∧
  st.imtChanged = decide (ps ≠ [])

/-- The imt installs contributed by a single interface method. -/
def installsOfMethod (vtable : List ArtMethod) (im : ArtMethod) :
    List (Nat × ArtMethod) :=
  match vtableBackSearch im vtable with
  | some (_, vm) => [(im.dexMethodIndex, vm)]
  | none => []

/-- The imt installs contributed by the methods of one interface. -/
def installsOfMethods (vtable : List ArtMethod) :
    List ArtMethod → List (Nat × ArtMethod)
  | [] => []
  | im :: ims => installsOfMethod vtable im ++ installsOfMethods vtable ims

/- ===================================================================
   Order theory of the LinkFieldsComparator.
   =================================================================== -/

theorem charListLt_irrefl (l : List Char) : charListLt l l = false := by
  induction l with
  | nil => rfl
  | cons c cs ih => simp [charListLt, ih]

theorem charListLt_trans :
    ∀ {a b c : List Char}, charListLt a b = true → charListLt b c = true →
      charListLt a c = true := by
  intro a
  induction a with
  | nil =>
    intro b c hab hbc
    cases b with
    | nil => exact hbc
    | cons y ys => cases c with
      | nil => simp [charListLt] at hbc
      | cons z zs => rfl
  | cons x xs ih =>
    intro b c hab hbc
    cases b with
    | nil => simp [charListLt] at hab
    | cons y ys =>
      cases c with
      | nil => simp [charListLt] at hbc
      | cons z zs =>
        simp only [charListLt] at hab hbc ⊢
        by_cases hxy : x.toNat < y.toNat
        · by_cases hyz : y.toNat < z.toNat
          · simp [Nat.lt_trans hxy hyz]
          · simp only [if_neg hyz] at hbc
            have hzy : ¬ z.toNat < y.toNat := by
              intro hzy
              simp [hzy] at hbc
            have hxz : x.toNat < z.toNat := by omega
            simp [hxz]
        · simp only [if_neg hxy] at hab
          have hyx : ¬ y.toNat < x.toNat := by
            intro hyx
            simp [hyx] at hab
          simp only [if_neg hyx] at hab
          have hxyeq : x.toNat = y.toNat := by omega
          by_cases hyz : y.toNat < z.toNat
          · have hxz : x.toNat < z.toNat := hxyeq ▸ hyz
            simp [hxz]
          · simp only [if_neg hyz] at hbc
            have hzy : ¬ z.toNat < y.toNat := by
              intro hzy
              simp [hzy] at hbc
            simp only [if_neg hzy] at hbc
            have hxz : ¬ x.toNat < z.toNat := by omega
            have hzx : ¬ z.toNat < x.toNat := by omega
            simp [hxz, hzx]
            exact ih hab hbc

theorem charListLt_trichotomy :
    ∀ (a b : List Char), charListLt a b = true ∨ charListLt b a = true ∨ a = b := by
  intro a
  induction a with
  | nil =>
    intro b
    cases b with
    | nil => right; right; rfl
    | cons y ys => left; rfl
  | cons x xs ih =>
    intro b
    cases b with
    | nil => right; left; rfl
    | cons y ys =>
      by_cases hxy : x.toNat < y.toNat
      · left; simp [charListLt, hxy]
      · by_cases hyx : y.toNat < x.toNat
        · right; left; simp [charListLt, hyx]
        · have hxyeq : x = y := by
            have h1 : x.toNat = y.toNat := by omega
            exact Char.eq_of_val_eq (UInt32.toNat.inj h1)
          rcases ih ys with h | h | h
          · left; simp [charListLt, hxy, hyx, h]
          · right; left; simp [charListLt, hxyeq, h]
          · right; right; rw [hxyeq, h]

theorem strLt_irrefl (s : String) : strLt s s = false :=
  charListLt_irrefl s.data

theorem strLt_trans {a b c : String} (hab : strLt a b = true)
    (hbc : strLt b c = true) : strLt a c = true :=
  charListLt_trans hab hbc

theorem strLt_trichotomy (a b : String) :
    strLt a b = true ∨ strLt b a = true ∨ a = b := by
  rcases charListLt_trichotomy a.data b.data with h | h | h
  · left; exact h
  · right; left; exact h
  · right; right; exact String.ext h

theorem strLt_asymm {a b : String} (h : strLt a b = true) :
    strLt b a = false := by
  by_contra hc
  have hba : strLt b a = true := by
    cases hb : strLt b a with
    | false => exact absurd hb hc
    | true => rfl
  have := strLt_trans h hba
  rw [strLt_irrefl] at this
  exact Bool.false_ne_true this

theorem fieldOrder_eq_of_type_eq {f g : ArtField}
    (h : f.fieldType = g.fieldType) : fieldOrder f = fieldOrder g := by
  unfold fieldOrder
  rw [h]

theorem fieldLt_iff (f g : ArtField) :
    fieldLt f g = true ↔
      (fieldOrder f < fieldOrder g ∨
       (fieldOrder f = fieldOrder g ∧ strLt f.name g.name = true)) := by
  unfold fieldLt
  by_cases h : f.fieldType ≠ g.fieldType ∧ fieldOrder f ≠ fieldOrder g
  · rw [if_pos h]
    simp [h.2]
  · rw [if_neg h]
    have ho : fieldOrder f = fieldOrder g := by
      rcases not_and_or.mp h with hA | hB
      · exact fieldOrder_eq_of_type_eq (not_not.mp hA)
      · exact not_not.mp hB
    simp [ho]

theorem fieldLt_eq_false_iff (f g : ArtField) :
    fieldLt f g = false ↔
      (fieldOrder g ≤ fieldOrder f ∧
       (fieldOrder f = fieldOrder g → strLt f.name g.name = false)) := by
  rw [← Bool.not_eq_true, fieldLt_iff]
  constructor
  · intro h
    constructor
    · by_contra hlt
      exact h (Or.inl (Nat.not_le.mp hlt))
    · intro heq
      by_contra hs
      exact h (Or.inr ⟨heq, by simpa using hs⟩)
  · rintro ⟨hle, hname⟩ (hlt | ⟨heq, hs⟩)
    · omega
    · rw [hname heq] at hs
      exact Bool.false_ne_true hs

theorem fieldLe_order {a b : ArtField} (h : fieldLe a b) :
    fieldOrder a ≤ fieldOrder b :=
  ((fieldLt_eq_false_iff b a).mp h).1

theorem fieldLe_name {a b : ArtField} (h : fieldLe a b)
    (ho : fieldOrder b = fieldOrder a) : strLt b.name a.name = false :=
  ((fieldLt_eq_false_iff b a).mp h).2 ho

instance : IsTotal ArtField fieldLe where
  total := by
    intro a b
    cases hab : fieldLt b a with
    | false => exact Or.inl hab
    | true =>
      right
      rw [fieldLt_iff] at hab
      show fieldLt a b = false
      rw [fieldLt_eq_false_iff]
      rcases hab with hlt | ⟨heq, hs⟩
      · exact ⟨Nat.le_of_lt hlt, fun he => by omega⟩
      · exact ⟨Nat.le_of_eq heq, fun _ => strLt_asymm hs⟩

instance : IsTrans ArtField fieldLe where
  trans := by
    intro a b c h1 h2
    unfold fieldLe at h1 h2 ⊢
    rw [fieldLt_eq_false_iff] at h1 h2 ⊢
    rcases h1 with ⟨hol1, hon1⟩
    rcases h2 with ⟨hol2, hon2⟩
    refine ⟨Nat.le_trans hol1 hol2, ?_⟩
    intro heq
    have he1 : fieldOrder b = fieldOrder a := by omega
    have he2 : fieldOrder c = fieldOrder b := by omega
    have hn1 := hon1 he1
    have hn2 := hon2 he2
    by_contra hs
    have hca : strLt c.name a.name = true := by simpa using hs
    rcases strLt_trichotomy b.name c.name with hbc | hcb | hbceq
    · have := strLt_trans hbc hca
      rw [hn1] at this
      exact Bool.false_ne_true this
    · rw [hn2] at hcb
      exact Bool.false_ne_true hcb
    · rw [hbceq] at hn1
      rw [hn1] at hca
      exact Bool.false_ne_true hca

theorem sortFields_sorted (l : List ArtField) :
    (sortFields l).Sorted fieldLe :=
  List.sorted_insertionSort fieldLe l

theorem sortFields_perm (l : List ArtField) : List.Perm (sortFields l) l :=
  List.perm_insertionSort fieldLe l

/- ===================================================================
   Bucket structure of the sorted field list.
   =================================================================== -/

theorem fieldOrder_cases (f : ArtField) :
    fieldOrder f = 0 ∨ fieldOrder f = 1 ∨ fieldOrder f = 2 := by
  unfold fieldOrder
  split
  · exact Or.inl rfl
  · split
    · exact Or.inr (Or.inl rfl)
    · exact Or.inr (Or.inr rfl)

theorem fieldOrder_eq_zero_iff (f : ArtField) :
    fieldOrder f = 0 ↔ isPrimitiveType f.fieldType = false := by
  unfold fieldOrder
  constructor
  · intro h
    by_contra hp
    simp only [Bool.not_eq_false] at hp
    simp [hp] at h
    split at h <;> omega
  · intro h
    simp [h]

theorem fieldOrder_eq_one_iff (f : ArtField) :
    fieldOrder f = 1 ↔
      (isPrimitiveType f.fieldType = true ∧ is64bitType f.fieldType = true) := by
  unfold fieldOrder
  cases hp : isPrimitiveType f.fieldType with
  | false => simp
  | true => cases h64 : is64bitType f.fieldType with
    | false => simp [hp, h64]
    | true => simp [hp, h64]

theorem fieldOrder_eq_two_iff (f : ArtField) :
    fieldOrder f = 2 ↔
      (isPrimitiveType f.fieldType = true ∧ is64bitType f.fieldType = false) := by
  unfold fieldOrder
  cases hp : isPrimitiveType f.fieldType with
  | false => simp
  | true => cases h64 : is64bitType f.fieldType with
    | false => simp [hp, h64]
    | true => simp [hp, h64]

theorem sorted_three_split (s : List ArtField) (hs : s.Sorted fieldLe) :
    s = s.filter (fun f => decide (fieldOrder f = 0)) ++
        s.filter (fun f => decide (fieldOrder f = 1)) ++
        s.filter (fun f => decide (fieldOrder f = 2)) := by
  induction s with
  | nil => rfl
  | cons f t ih =>
    have hrel : ∀ g ∈ t, fieldLe f g := List.rel_of_sorted_cons hs
    have ht : t = t.filter (fun f => decide (fieldOrder f = 0)) ++
        t.filter (fun f => decide (fieldOrder f = 1)) ++
        t.filter (fun f => decide (fieldOrder f = 2)) := ih hs.of_cons
    rcases fieldOrder_cases f with h0 | h1 | h2
    · simp only [List.filter_cons, h0]
      norm_num
      conv_lhs => rw [ht]
      rw [List.append_assoc]
    · have hf0 : t.filter (fun f => decide (fieldOrder f = 0)) = [] := by
        rw [List.filter_eq_nil_iff]
        intro g hg
        have := fieldLe_order (hrel g hg)
        simp only [decide_eq_true_eq]
        omega
      simp only [List.filter_cons, h1]
      norm_num
      rw [hf0]
      rw [hf0] at ht
      simpa using ht
    · have hf0 : t.filter (fun f => decide (fieldOrder f = 0)) = [] := by
        rw [List.filter_eq_nil_iff]
        intro g hg
        have := fieldLe_order (hrel g hg)
        simp only [decide_eq_true_eq]
        omega
      have hf1 : t.filter (fun f => decide (fieldOrder f = 1)) = [] := by
        rw [List.filter_eq_nil_iff]
        intro g hg
        have := fieldLe_order (hrel g hg)
        simp only [decide_eq_true_eq]
        omega
      simp only [List.filter_cons, h2]
      norm_num
      rw [hf0, hf1]
      rw [hf0, hf1] at ht
      simpa using ht

theorem takeWhile_dropWhile_append {α : Type} {p : α → Bool}
    (R P : List α) (hR : ∀ f ∈ R, p f = true)
    (hP : ∀ f, P.head? = some f → p f = false) :
    (R ++ P).takeWhile p = R ∧ (R ++ P).dropWhile p = P := by
  induction R with
  | nil =>
    simp only [List.nil_append]
    cases P with
    | nil => exact ⟨rfl, rfl⟩
    | cons f fs =>
      have hf : p f = false := hP f rfl
      simp [List.takeWhile, List.dropWhile, hf]
  | cons r rs ih =>
    have hr : p r = true := hR r (by simp)
    have := ih (fun f hf => hR f (by simp [hf]))
    simp [List.takeWhile, List.dropWhile, hr, this.1, this.2]

/- ===================================================================
   Closed forms for the layout phases.
   =================================================================== -/

theorem layoutReferenceFields_eq (R : List ArtField) :
    ∀ off, layoutReferenceFields off R = (withOffsets off 4 R, off + 4 * R.length) := by
  induction R with
  | nil => intro off; simp [layoutReferenceFields, withOffsets]
  | cons f fs ih =>
    intro off
    simp only [layoutReferenceFields, withOffsets, ih (off + 4), List.length_cons,
      Prod.mk.injEq]
    exact ⟨trivial, by omega⟩

theorem layoutRemainingFields_all32 (A : List ArtField)
    (h : ∀ f ∈ A, is64bitType f.fieldType = false) :
    ∀ off, layoutRemainingFields off A = (withOffsets off 4 A, off + 4 * A.length) := by
  induction A with
  | nil => intro off; simp [layoutRemainingFields, withOffsets]
  | cons f fs ih =>
    intro off
    have hf : is64bitType f.fieldType = false := h f (by simp)
    have ihs := ih (fun g hg => h g (by simp [hg])) (off + 4)
    simp only [layoutRemainingFields, withOffsets, hf, List.length_cons]
    norm_num
    rw [ihs]
    simp only [Prod.mk.injEq]
    exact ⟨trivial, by omega⟩

theorem layoutRemainingFields_split (S64 S32 : List ArtField)
    (h64 : ∀ f ∈ S64, is64bitType f.fieldType = true)
    (h32 : ∀ f ∈ S32, is64bitType f.fieldType = false) :
    ∀ off, layoutRemainingFields off (S64 ++ S32) =
      (withOffsets off 8 S64 ++ withOffsets (off + 8 * S64.length) 4 S32,
       off + 8 * S64.length + 4 * S32.length) := by
  induction S64 with
  | nil =>
    intro off
    simpa using layoutRemainingFields_all32 S32 h32 off
  | cons f fs ih =>
    intro off
    have hf : is64bitType f.fieldType = true := h64 f (by simp)
    have ihs := ih (fun g hg => h64 g (by simp [hg])) (off + 8)
    simp only [List.cons_append, layoutRemainingFields, withOffsets, hf,
      List.length_cons]
    norm_num
    rw [ihs]
    have harith : off + 8 + 8 * fs.length = off + 8 * (fs.length + 1) := by omega
    rw [harith]
    simp only [Prod.mk.injEq, List.cons_append]
    exact ⟨trivial, trivial⟩

theorem scavenge32_split_nil (S64 : List ArtField)
    (h64 : ∀ f ∈ S64, is64bitType f.fieldType = true) :
    scavenge32 (S64 ++ []) = none := by
  induction S64 with
  | nil => rfl
  | cons f fs ih =>
    have hf : is64bitType f.fieldType = true := h64 f (by simp)
    simp only [List.cons_append, scavenge32, hf, if_pos, List.append_eq]
    rw [ih (fun g hg => h64 g (by simp [hg]))]

theorem scavenge32_split_cons (S64 : List ArtField) (w : ArtField)
    (rest : List ArtField)
    (h64 : ∀ f ∈ S64, is64bitType f.fieldType = true)
    (hw : is64bitType w.fieldType = false) :
    scavenge32 (S64 ++ w :: rest) = some (w, S64 ++ rest) := by
  induction S64 with
  | nil => simp [scavenge32, hw]
  | cons f fs ih =>
    have hf : is64bitType f.fieldType = true := h64 f (by simp)
    simp only [List.cons_append, scavenge32, hf, if_pos, List.append_eq]
    rw [ih (fun g hg => h64 g (by simp [hg]))]

/- ===================================================================
   The master characterization of LinkFields, one lemma per branch of
   the padding decision.
   =================================================================== -/

theorem linkFields_common_prep (l R S64 S32 : List ArtField)
    (hsplit : sortFields l = R ++ S64 ++ S32)
    (hR : ∀ f ∈ R, fieldOrder f = 0)
    (h64 : ∀ f ∈ S64, fieldOrder f = 1)
    (h32 : ∀ f ∈ S32, fieldOrder f = 2) :
    (sortFields l).takeWhile
        (fun f => decide (isPrimitiveType f.fieldType = false)) = R ∧
    (sortFields l).dropWhile
        (fun f => decide (isPrimitiveType f.fieldType = false)) =
      S64 ++ S32 := by
  have hsplit2 : sortFields l = R ++ (S64 ++ S32) := by
    rw [hsplit, List.append_assoc]
  have hRp : ∀ f ∈ R, (decide (isPrimitiveType f.fieldType = false)) = true := by
    intro f hf
    have := (fieldOrder_eq_zero_iff f).mp (hR f hf)
    simpa using this
  have hprimAll : ∀ f ∈ S64 ++ S32, isPrimitiveType f.fieldType = true := by
    intro f hf
    rcases List.mem_append.mp hf with h | h
    · exact ((fieldOrder_eq_one_iff f).mp (h64 f h)).1
    · exact ((fieldOrder_eq_two_iff f).mp (h32 f h)).1
  have hhead : ∀ f, (S64 ++ S32).head? = some f →
      (decide (isPrimitiveType f.fieldType = false)) = false := by
    intro f hf
    cases hls : S64 ++ S32 with
    | nil => rw [hls] at hf; simp at hf
    | cons a t =>
      rw [hls] at hf
      simp only [List.head?_cons, Option.some.injEq] at hf
      have hmem : f ∈ S64 ++ S32 := by
        rw [hls, ← hf]
        exact List.mem_cons_self a t
      have := hprimAll f hmem
      simp [this]
  obtain ⟨htake, hdrop⟩ :=
    takeWhile_dropWhile_append R (S64 ++ S32) hRp hhead
  rw [hsplit2]
  exact ⟨htake, hdrop⟩

theorem linkFields_no_pad (isStatic : Bool) (descriptor : String)
    (base : Nat) (l R S64 S32 : List ArtField)
    (hsplit : sortFields l = R ++ S64 ++ S32)
    (hR : ∀ f ∈ R, fieldOrder f = 0)
    (h64 : ∀ f ∈ S64, fieldOrder f = 1)
    (h32 : ∀ f ∈ S32, fieldOrder f = 2)
    (hcond : S64.length + S32.length = 0 ∨ (base + 4 * R.length) % 8 = 0) :
    linkFields isStatic descriptor base l =
      { fields := withOffsets base 4 R ++
          withOffsets (base + 4 * R.length) 8 S64 ++
          withOffsets (base + 4 * R.length + 8 * S64.length) 4 S32
        numReferenceFields :=
          if isStatic = false ∧ descriptor = javaLangRefReference then
            R.length - 1 else R.length
        size := base + 4 * R.length + 8 * S64.length + 4 * S32.length } := by
  obtain ⟨htake, hdrop⟩ := linkFields_common_prep l R S64 S32 hsplit hR h64 h32
  have h64b : ∀ f ∈ S64, is64bitType f.fieldType = true :=
    fun f hf => ((fieldOrder_eq_one_iff f).mp (h64 f hf)).2
  have h32b : ∀ f ∈ S32, is64bitType f.fieldType = false :=
    fun f hf => ((fieldOrder_eq_two_iff f).mp (h32 f hf)).2
  have hnotpad : ¬ (¬ (S64 ++ S32) = [] ∧ ¬ (base + 4 * R.length) % 8 = 0) := by
    rcases hcond with h | h
    · intro hc
      apply hc.1
      have : (S64 ++ S32).length = 0 := by rw [List.length_append]; omega
      exact List.length_eq_zero.mp this
    · intro hc
      exact hc.2 h
  simp only [linkFields]
  rw [htake, hdrop, layoutReferenceFields_eq, if_neg hnotpad,
    layoutRemainingFields_split S64 S32 h64b h32b]
  simp [List.append_assoc]

theorem linkFields_pad_scavenge (isStatic : Bool) (descriptor : String)
    (base : Nat) (l R S64 : List ArtField) (w : ArtField)
    (S32r : List ArtField)
    (hsplit : sortFields l = R ++ S64 ++ (w :: S32r))
    (hR : ∀ f ∈ R, fieldOrder f = 0)
    (h64 : ∀ f ∈ S64, fieldOrder f = 1)
    (h32 : ∀ f ∈ w :: S32r, fieldOrder f = 2)
    (hmis : (base + 4 * R.length) % 8 ≠ 0) :
    linkFields isStatic descriptor base l =
      { fields := withOffsets base 4 R ++
          [(w, base + 4 * R.length)] ++
          withOffsets (base + 4 * R.length + 4) 8 S64 ++
          withOffsets (base + 4 * R.length + 4 + 8 * S64.length) 4 S32r
        numReferenceFields :=
          if isStatic = false ∧ descriptor = javaLangRefReference then
            R.length - 1 else R.length
        size := base + 4 * R.length + 4 + 8 * S64.length + 4 * S32r.length } := by
  obtain ⟨htake, hdrop⟩ :=
    linkFields_common_prep l R S64 (w :: S32r) hsplit hR h64 h32
  have h64b : ∀ f ∈ S64, is64bitType f.fieldType = true :=
    fun f hf => ((fieldOrder_eq_one_iff f).mp (h64 f hf)).2
  have h32b : ∀ f ∈ w :: S32r, is64bitType f.fieldType = false :=
    fun f hf => ((fieldOrder_eq_two_iff f).mp (h32 f hf)).2
  have hpad : ¬ (S64 ++ (w :: S32r)) = [] ∧
      ¬ (base + 4 * R.length) % 8 = 0 := by
    refine ⟨?_, hmis⟩
    intro hc
    have := congrArg List.length hc
    simp [List.length_append] at this
  simp only [linkFields]
  rw [htake, hdrop, layoutReferenceFields_eq, if_pos hpad,
    scavenge32_split_cons S64 w S32r h64b (h32b w (by simp)),
    layoutRemainingFields_split S64 S32r h64b
      (fun f hf => h32b f (by simp [hf]))]
  simp [List.append_assoc]

theorem linkFields_pad_empty (isStatic : Bool) (descriptor : String)
    (base : Nat) (l R S64 : List ArtField)
    (hsplit : sortFields l = R ++ S64 ++ [])
    (hR : ∀ f ∈ R, fieldOrder f = 0)
    (h64 : ∀ f ∈ S64, fieldOrder f = 1)
    (hne : S64 ≠ [])
    (hmis : (base + 4 * R.length) % 8 ≠ 0) :
    linkFields isStatic descriptor base l =
      { fields := withOffsets base 4 R ++
          withOffsets (base + 4 * R.length + 4) 8 S64
        numReferenceFields :=
          if isStatic = false ∧ descriptor = javaLangRefReference then
            R.length - 1 else R.length
        size := base + 4 * R.length + 4 + 8 * S64.length } := by
  obtain ⟨htake, hdrop⟩ :=
    linkFields_common_prep l R S64 [] hsplit hR h64 (by simp)
  have h64b : ∀ f ∈ S64, is64bitType f.fieldType = true :=
    fun f hf => ((fieldOrder_eq_one_iff f).mp (h64 f hf)).2
  have hpad : ¬ (S64 ++ ([] : List ArtField)) = [] ∧
      ¬ (base + 4 * R.length) % 8 = 0 := by
    refine ⟨?_, hmis⟩
    simpa using hne
  simp only [linkFields]
  rw [htake, hdrop, layoutReferenceFields_eq, if_pos hpad,
    scavenge32_split_nil S64 h64b]
  have heq := layoutRemainingFields_split S64 [] h64b (by simp)
    (base + 4 * R.length + 4)
  simp only [List.append_nil] at heq
  simp only [List.append_nil]
  rw [heq]
  simp [withOffsets]

/- ===================================================================
   Decomposition of the sorted field list and re-sorting lemmas.
   =================================================================== -/

theorem bucket_name_sorted (X : List ArtField) (hs : X.Sorted fieldLe)
    (k : Nat) (hk : ∀ f ∈ X, fieldOrder f = k) :
    X.Sorted fieldNameLe := by
  apply List.Pairwise.imp_of_mem ?_ hs
  intro a b ha hb hab
  have hoa := hk a ha
  have hob := hk b hb
  exact fieldLe_name hab (by omega)

theorem sortFields_decomp (l : List ArtField) :
    ∃ R S64 S32 : List ArtField,
      sortFields l = R ++ S64 ++ S32 ∧
      List.Perm (R ++ S64 ++ S32) l ∧
      (∀ f ∈ R, fieldOrder f = 0) ∧
      (∀ f ∈ S64, fieldOrder f = 1) ∧
      (∀ f ∈ S32, fieldOrder f = 2) ∧
      R.Sorted fieldNameLe ∧ S64.Sorted fieldNameLe ∧
      S32.Sorted fieldNameLe := by
  have hsorted := sortFields_sorted l
  have hsplit := sorted_three_split (sortFields l) hsorted
  refine ⟨(sortFields l).filter (fun f => decide (fieldOrder f = 0)),
    (sortFields l).filter (fun f => decide (fieldOrder f = 1)),
    (sortFields l).filter (fun f => decide (fieldOrder f = 2)),
    hsplit, ?_, ?_, ?_, ?_, ?_, ?_, ?_⟩
  · rw [← hsplit]
    exact sortFields_perm l
  · intro f hf
    simpa using (List.mem_filter.mp hf).2
  · intro f hf
    simpa using (List.mem_filter.mp hf).2
  · intro f hf
    simpa using (List.mem_filter.mp hf).2
  · refine bucket_name_sorted _ ?_ 0 ?_
    · exact List.Pairwise.sublist (List.filter_sublist _) hsorted
    · intro f hf
      simpa using (List.mem_filter.mp hf).2
  · refine bucket_name_sorted _ ?_ 1 ?_
    · exact List.Pairwise.sublist (List.filter_sublist _) hsorted
    · intro f hf
      simpa using (List.mem_filter.mp hf).2
  · refine bucket_name_sorted _ ?_ 2 ?_
    · exact List.Pairwise.sublist (List.filter_sublist _) hsorted
    · intro f hf
      simpa using (List.mem_filter.mp hf).2

theorem orderedInsert_append_not_le (w : ArtField) (A B : List ArtField)
    (hA : ∀ y ∈ A, ¬ fieldLe w y) :
    List.orderedInsert fieldLe w (A ++ B) =
      A ++ List.orderedInsert fieldLe w B := by
  induction A with
  | nil => rfl
  | cons a as ih =>
    have ha : ¬ fieldLe w a := hA a (by simp)
    simp only [List.cons_append, List.orderedInsert, if_neg ha, List.append_eq]
    rw [ih (fun y hy => hA y (by simp [hy]))]

theorem insertionSort_append_prefix (R : List ArtField) :
    ∀ T : List ArtField, R.Sorted fieldLe →
      (∀ x ∈ R, ∀ y ∈ T, fieldLe x y) →
      List.insertionSort fieldLe (R ++ T) =
        R ++ List.insertionSort fieldLe T := by
  induction R with
  | nil => intro T _ _; rfl
  | cons a R2 ih =>
    intro T hsR hRT
    have htail := ih T hsR.of_cons
      (fun x hx y hy => hRT x (by simp [hx]) y hy)
    simp only [List.cons_append, List.insertionSort, List.append_eq]
    rw [htail]
    cases hR2 : R2 with
    | nil =>
      simp only [List.nil_append]
      cases hT : List.insertionSort fieldLe T with
      | nil => rfl
      | cons t ts =>
        have htmem : t ∈ T := by
          have : t ∈ List.insertionSort fieldLe T := by rw [hT]; simp
          exact (List.mem_insertionSort fieldLe).mp this
        have := hRT a (by simp) t htmem
        rw [List.orderedInsert_of_le fieldLe ts this]
    | cons b R3 =>
      have hab : fieldLe a b := by
        have := List.rel_of_sorted_cons hsR
        exact this b (by rw [hR2]; simp)
      exact List.orderedInsert_of_le fieldLe _ hab

theorem sortFields_scavenged (l R S64 : List ArtField) (w : ArtField)
    (S32r : List ArtField)
    (hsplit : sortFields l = R ++ S64 ++ (w :: S32r))
    (h64 : ∀ f ∈ S64, fieldOrder f = 1)
    (h32 : ∀ f ∈ w :: S32r, fieldOrder f = 2) :
    sortFields (R ++ [w] ++ (S64 ++ S32r)) = sortFields l := by
  have hsorted := sortFields_sorted l
  rw [hsplit] at hsorted
  have hsorted2 : List.Sorted fieldLe (R ++ (S64 ++ (w :: S32r))) := by
    rw [← List.append_assoc]
    exact hsorted
  have hpair := List.pairwise_append.mp hsorted2
  have hsR : R.Sorted fieldLe := hpair.1
  have hsT : List.Sorted fieldLe (S64 ++ (w :: S32r)) := hpair.2.1
  have hRT : ∀ x ∈ R, ∀ y ∈ S64 ++ (w :: S32r), fieldLe x y := hpair.2.2
  -- sort the tail: the scavenged field w returns to its sorted slot
  have htail : List.insertionSort fieldLe (w :: (S64 ++ S32r)) =
      S64 ++ (w :: S32r) := by
    have hs64s : List.Sorted fieldLe (S64 ++ S32r) := by
      have hsub := List.Sublist.append_left (List.sublist_cons_self w S32r) S64
      exact List.Pairwise.sublist hsub hsT
    simp only [List.insertionSort]
    rw [List.Sorted.insertionSort_eq hs64s]
    have hA : ∀ y ∈ S64, ¬ fieldLe w y := by
      intro y hy
      intro hle
      have h1 := h64 y hy
      have h2 := h32 w (by simp)
      have := fieldLe_order hle
      omega
    rw [orderedInsert_append_not_le w S64 S32r hA]
    cases hS : S32r with
    | nil => rfl
    | cons t ts =>
      have hwt : fieldLe w t := by
        have hsw : List.Sorted fieldLe (w :: S32r) := by
          have hsub := List.sublist_append_right S64 (w :: S32r)
          exact List.Pairwise.sublist hsub hsT
        exact List.rel_of_sorted_cons hsw t (by rw [hS]; simp)
      rw [List.orderedInsert_of_le fieldLe ts hwt]
  have hmemT : ∀ y ∈ w :: (S64 ++ S32r), y ∈ S64 ++ (w :: S32r) := by
    intro y hy
    rcases List.mem_cons.mp hy with h | h
    · subst h; simp
    · rcases List.mem_append.mp h with h2 | h2
      · simp [h2]
      · simp [h2]
  have := insertionSort_append_prefix R (w :: (S64 ++ S32r)) hsR
    (fun x hx y hy => hRT x hx y (hmemT y hy))
  calc sortFields (R ++ [w] ++ (S64 ++ S32r))
      = List.insertionSort fieldLe (R ++ (w :: (S64 ++ S32r))) := by
        unfold sortFields
        rw [List.append_assoc]
        rfl
    _ = R ++ List.insertionSort fieldLe (w :: (S64 ++ S32r)) := this
    _ = R ++ (S64 ++ (w :: S32r)) := by rw [htail]
    _ = sortFields l := by rw [hsplit, List.append_assoc]

theorem withOffsets_map_fst (start step : Nat) (X : List ArtField) :
    (withOffsets start step X).map Prod.fst = X := by
  induction X generalizing start with
  | nil => rfl
  | cons f fs ih =>
    simp only [withOffsets, List.map_cons, ih]

theorem linkFields_congr_sort (isStatic : Bool) (descriptor : String)
    (base : Nat) (l1 l2 : List ArtField)
    (h : sortFields l1 = sortFields l2) :
    linkFields isStatic descriptor base l1 =
      linkFields isStatic descriptor base l2 := by
  simp only [linkFields, h]

/- ===================================================================
   Bucket counts: the filters of SizeOfClass against the decomposition.
   =================================================================== -/

theorem counts_of_decomp (l R S64 S32 : List ArtField)
    (hperm : List.Perm (R ++ S64 ++ S32) l)
    (hR : ∀ f ∈ R, fieldOrder f = 0)
    (h64 : ∀ f ∈ S64, fieldOrder f = 1)
    (h32 : ∀ f ∈ S32, fieldOrder f = 2) :
    (l.filter (fun f => ! isPrimitiveType f.fieldType)).length = R.length ∧
    (l.filter (fun f =>
      isPrimitiveType f.fieldType && is64bitType f.fieldType)).length =
      S64.length ∧
    (l.filter (fun f =>
      isPrimitiveType f.fieldType && ! is64bitType f.fieldType)).length =
      S32.length := by
  have hRp : ∀ f ∈ R, isPrimitiveType f.fieldType = false :=
    fun f hf => (fieldOrder_eq_zero_iff f).mp (hR f hf)
  have h64p : ∀ f ∈ S64,
      isPrimitiveType f.fieldType = true ∧ is64bitType f.fieldType = true :=
    fun f hf => (fieldOrder_eq_one_iff f).mp (h64 f hf)
  have h32p : ∀ f ∈ S32,
      isPrimitiveType f.fieldType = true ∧ is64bitType f.fieldType = false :=
    fun f hf => (fieldOrder_eq_two_iff f).mp (h32 f hf)
  refine ⟨?_, ?_, ?_⟩
  · have hp := (hperm.symm.filter (fun f => ! isPrimitiveType f.fieldType))
    rw [hp.length_eq]
    rw [List.filter_append, List.filter_append]
    rw [List.filter_eq_self.mpr (fun f hf => by simp [hRp f hf])]
    rw [List.filter_eq_nil_iff.mpr (fun f hf => by simp [(h64p f hf).1])]
    rw [List.filter_eq_nil_iff.mpr (fun f hf => by simp [(h32p f hf).1])]
    simp
  · have hp := (hperm.symm.filter (fun f =>
      isPrimitiveType f.fieldType && is64bitType f.fieldType))
    rw [hp.length_eq]
    rw [List.filter_append, List.filter_append]
    rw [List.filter_eq_nil_iff.mpr (fun f hf => by simp [hRp f hf])]
    rw [List.filter_eq_self.mpr
      (fun f hf => by simp [(h64p f hf).1, (h64p f hf).2])]
    rw [List.filter_eq_nil_iff.mpr (fun f hf => by simp [(h32p f hf).2])]
    simp
  · have hp := (hperm.symm.filter (fun f =>
      isPrimitiveType f.fieldType && ! is64bitType f.fieldType))
    rw [hp.length_eq]
    rw [List.filter_append, List.filter_append]
    rw [List.filter_eq_nil_iff.mpr (fun f hf => by simp [hRp f hf])]
    rw [List.filter_eq_nil_iff.mpr (fun f hf => by simp [(h64p f hf).2])]
    rw [List.filter_eq_self.mpr
      (fun f hf => by simp [(h32p f hf).1, (h32p f hf).2])]
    simp

/- ===================================================================
   Facts about the canonical buckets.
   =================================================================== -/

theorem bucket_split (fields : List ArtField) :
    sortFields fields =
      refBucket fields ++ longBucket fields ++ wordBucket fields :=
  sorted_three_split (sortFields fields) (sortFields_sorted fields)

theorem refBucket_orders (fields : List ArtField) :
    ∀ f ∈ refBucket fields, fieldOrder f = 0 := by
  intro f hf
  simpa using (List.mem_filter.mp hf).2

theorem longBucket_orders (fields : List ArtField) :
    ∀ f ∈ longBucket fields, fieldOrder f = 1 := by
  intro f hf
  simpa using (List.mem_filter.mp hf).2

theorem wordBucket_orders (fields : List ArtField) :
    ∀ f ∈ wordBucket fields, fieldOrder f = 2 := by
  intro f hf
  simpa using (List.mem_filter.mp hf).2

/-- C2: For every class and both values of isStatic, LinkFields assigns
offsets in three-bucket order — all object-reference fields first, then
64-bit primitive fields, then 32-bit primitive fields — with fields
sorted lexicographically by field name within each bucket; reference
fields get consecutive 4-byte slots starting at the base offset; if
primitive fields remain and the running offset is not 8-byte aligned,
exactly one 32-bit field is emitted out of order as padding when one
exists, otherwise a 4-byte pad is inserted; then all 64-bit fields are
emitted, then the remaining 32-bit fields. -/
theorem linkFields_three_bucket_layout (isStatic : Bool)
    (descriptor : String) (base : Nat) (fields : List ArtField) :
    sortFields fields =
      refBucket fields ++ longBucket fields ++ wordBucket fields ∧
    List.Perm (refBucket fields ++ longBucket fields ++ wordBucket fields)
      fields ∧
    (∀ f ∈ refBucket fields, isPrimitiveType f.fieldType = false) ∧
    (∀ f ∈ longBucket fields,
      isPrimitiveType f.fieldType = true ∧ is64bitType f.fieldType = true) ∧
    (∀ f ∈ wordBucket fields,
      isPrimitiveType f.fieldType = true ∧ is64bitType f.fieldType = false) ∧
    (refBucket fields).Sorted fieldNameLe ∧
    (longBucket fields).Sorted fieldNameLe ∧
    (wordBucket fields).Sorted fieldNameLe ∧
    (((longBucket fields).length + (wordBucket fields).length = 0 ∨
        (base + 4 * (refBucket fields).length) % 8 = 0) →
      linkFields isStatic descriptor base fields =
        { fields := withOffsets base 4 (refBucket fields) ++
            withOffsets (base + 4 * (refBucket fields).length) 8
              (longBucket fields) ++
            withOffsets (base + 4 * (refBucket fields).length +
              8 * (longBucket fields).length) 4 (wordBucket fields)
          numReferenceFields :=
            if isStatic = false ∧ descriptor = javaLangRefReference then
              (refBucket fields).length - 1 else (refBucket fields).length
          size := base + 4 * (refBucket fields).length +
            8 * (longBucket fields).length +
            4 * (wordBucket fields).length }) ∧
    (∀ w S32r, wordBucket fields = w :: S32r →
      (base + 4 * (refBucket fields).length) % 8 ≠ 0 →
      linkFields isStatic descriptor base fields =
        { fields := withOffsets base 4 (refBucket fields) ++
            [(w, base + 4 * (refBucket fields).length)] ++
            withOffsets (base + 4 * (refBucket fields).length + 4) 8
              (longBucket fields) ++
            withOffsets (base + 4 * (refBucket fields).length + 4 +
              8 * (longBucket fields).length) 4 S32r
          numReferenceFields :=
            if isStatic = false ∧ descriptor = javaLangRefReference then
              (refBucket fields).length - 1 else (refBucket fields).length
          size := base + 4 * (refBucket fields).length + 4 +
            8 * (longBucket fields).length + 4 * S32r.length }) ∧
    (wordBucket fields = [] → longBucket fields ≠ [] →
      (base + 4 * (refBucket fields).length) % 8 ≠ 0 →
      linkFields isStatic descriptor base fields =
        { fields := withOffsets base 4 (refBucket fields) ++
            withOffsets (base + 4 * (refBucket fields).length + 4) 8
              (longBucket fields)
          numReferenceFields :=
            if isStatic = false ∧ descriptor = javaLangRefReference then
              (refBucket fields).length - 1 else (refBucket fields).length
          size := base + 4 * (refBucket fields).length + 4 +
            8 * (longBucket fields).length }) := by
  have hsplit := bucket_split fields
  have hR := refBucket_orders fields
  have h64 := longBucket_orders fields
  have h32 := wordBucket_orders fields
  have hsorted := sortFields_sorted fields
  refine ⟨hsplit, ?_, ?_, ?_, ?_, ?_, ?_, ?_, ?_, ?_, ?_⟩
  · rw [← hsplit]
    exact sortFields_perm fields
  · exact fun f hf => (fieldOrder_eq_zero_iff f).mp (hR f hf)
  · exact fun f hf => (fieldOrder_eq_one_iff f).mp (h64 f hf)
  · exact fun f hf => (fieldOrder_eq_two_iff f).mp (h32 f hf)
  · exact bucket_name_sorted _
      (List.Pairwise.sublist (List.filter_sublist _) hsorted) 0 hR
  · exact bucket_name_sorted _
      (List.Pairwise.sublist (List.filter_sublist _) hsorted) 1 h64
  · exact bucket_name_sorted _
      (List.Pairwise.sublist (List.filter_sublist _) hsorted) 2 h32
  · intro hcond
    exact linkFields_no_pad isStatic descriptor base fields _ _ _
      hsplit hR h64 h32 hcond
  · intro w S32r hw hmis
    rw [hw] at hsplit h32
    exact linkFields_pad_scavenge isStatic descriptor base fields _ _ w S32r
      hsplit hR h64 h32 hmis
  · intro hempty hne hmis
    rw [hempty] at hsplit
    exact linkFields_pad_empty isStatic descriptor base fields _ _
      hsplit hR h64 hne hmis

/-- Witness for C2 at the concrete field set of spec Scenario 4 with a
base offset that is not 8-byte aligned after the reference fields: the
32-bit field is scavenged into the gap before the 64-bit field. -/
theorem linkFields_three_bucket_layout_witness :
    linkFields false "LFoo;" 12
      [⟨"refField", Primitive.kPrimNot⟩, ⟨"longField", Primitive.kPrimLong⟩,
       ⟨"intField", Primitive.kPrimInt⟩, ⟨"refField2", Primitive.kPrimNot⟩] =
      { fields := [(⟨"refField", Primitive.kPrimNot⟩, 12),
                   (⟨"refField2", Primitive.kPrimNot⟩, 16),
                   (⟨"intField", Primitive.kPrimInt⟩, 20),
                   (⟨"longField", Primitive.kPrimLong⟩, 24)]
        numReferenceFields := 2
        size := 32 } := by
  have h := linkFields_three_bucket_layout false "LFoo;" 12
    [⟨"refField", Primitive.kPrimNot⟩, ⟨"longField", Primitive.kPrimLong⟩,
     ⟨"intField", Primitive.kPrimInt⟩, ⟨"refField2", Primitive.kPrimNot⟩]
  have h2 := h.2.2.2.2.2.2.2.2.2.1
  have h3 := h2 ⟨"intField", Primitive.kPrimInt⟩ [] (by decide) (by decide)
  rw [h3]
  decide

theorem sortFields_idem (l : List ArtField) :
    sortFields (sortFields l) = sortFields l :=
  List.Sorted.insertionSort_eq (sortFields_sorted l)

/-- C7: LinkFields is deterministic and idempotent: two runs on the
same field list produce identical results, and re-running LinkFields
on the already-laid-out field list (the fields array in its final
order) reproduces exactly the same offsets for every field and the
same recorded total size. -/
theorem linkFields_deterministic_idempotent (isStatic : Bool)
    (descriptor : String) (base : Nat) (fields : List ArtField) :
    linkFields isStatic descriptor base fields =
      linkFields isStatic descriptor base fields ∧
    linkFields isStatic descriptor base
        ((linkFields isStatic descriptor base fields).fields.map Prod.fst) =
      linkFields isStatic descriptor base fields := by
  refine ⟨rfl, ?_⟩
  obtain ⟨R, S64, S32, hsplit, hperm, hR, h64, h32, _, _, _⟩ :=
    sortFields_decomp fields
  apply linkFields_congr_sort
  by_cases hc1 : S64.length + S32.length = 0 ∨ (base + 4 * R.length) % 8 = 0
  · rw [linkFields_no_pad isStatic descriptor base fields R S64 S32
      hsplit hR h64 h32 hc1]
    simp only [List.map_append, withOffsets_map_fst]
    rw [← hsplit]
    exact sortFields_idem fields
  · push_neg at hc1
    obtain ⟨hlen, hmis⟩ := hc1
    cases hS32 : S32 with
    | nil =>
      subst hS32
      have hne : S64 ≠ [] := by
        intro hc
        apply hlen
        rw [hc]
        rfl
      rw [linkFields_pad_empty isStatic descriptor base fields R S64
        hsplit hR h64 hne hmis]
      simp only [List.map_append, withOffsets_map_fst]
      have hsplit2 : sortFields fields = R ++ S64 := by
        rw [hsplit, List.append_nil]
      rw [← hsplit2]
      exact sortFields_idem fields
    | cons w S32r =>
      subst hS32
      rw [linkFields_pad_scavenge isStatic descriptor base fields R S64
        w S32r hsplit hR h64 h32 hmis]
      have hscav := sortFields_scavenged fields R S64 w S32r hsplit h64 h32
      simp only [List.map_append, withOffsets_map_fst, List.map_cons,
        List.map_nil]
      rw [← hscav]
      congr 1
      simp [List.append_assoc]

/-- C9: the class-object size precomputed by SizeOfClass (the
bucket-count scan over the static fields, with its alignment word)
equals the class size computed by actually laying out the same static
fields with LinkFields(klass, true) from the same class header size —
the agreement asserted by the CHECK in LinkStaticFields. -/
theorem sizeOfClass_matches_linkFields (descriptor : String)
    (headerSize : Nat) (staticFields : List ArtField) :
    sizeOfClass headerSize staticFields =
      (linkFields true descriptor headerSize staticFields).size := by
  obtain ⟨R, S64, S32, hsplit, hperm, hR, h64, h32, _, _, _⟩ :=
    sortFields_decomp staticFields
  obtain ⟨hcR, hc64, hc32⟩ :=
    counts_of_decomp staticFields R S64 S32 hperm hR h64 h32
  by_cases hc1 : S64.length + S32.length = 0 ∨
      (headerSize + 4 * R.length) % 8 = 0
  · rw [linkFields_no_pad true descriptor headerSize staticFields R S64 S32
      hsplit hR h64 h32 hc1]
    simp only [sizeOfClass]
    rw [hcR, hc64, hc32]
    rcases hc1 with h | h
    · have h1 : S64.length = 0 := by omega
      have h2 : S32.length = 0 := by omega
      split_ifs <;> omega
    · split_ifs <;> omega
  · push_neg at hc1
    obtain ⟨hlen, hmis⟩ := hc1
    cases hS32 : S32 with
    | nil =>
      subst hS32
      have hne : S64 ≠ [] := by
        intro hc
        apply hlen
        rw [hc]
        rfl
      rw [linkFields_pad_empty true descriptor headerSize staticFields R S64
        hsplit hR h64 hne hmis]
      simp only [sizeOfClass]
      rw [hcR, hc64, hc32]
      have hne2 : S64.length ≠ 0 := by
        intro hc
        exact hne (List.length_eq_zero.mp hc)
      split_ifs <;> simp only [List.length_cons, List.length_nil] at * <;> omega
    | cons w S32r =>
      subst hS32
      rw [linkFields_pad_scavenge true descriptor headerSize staticFields R
        S64 w S32r hsplit hR h64 h32 hmis]
      simp only [sizeOfClass]
      rw [hcR, hc64, hc32]
      split_ifs <;> simp only [List.length_cons, List.length_nil] at * <;> omega

/- ===================================================================
   C1: the override scan of LinkVirtualMethods.
   =================================================================== -/

theorem linkVirtualScan_spec (canAccess : ArtMethod → Bool) (m : ArtMethod) :
    ∀ (l : List ArtMethod) (j0 : Nat),
      ((∀ i sm, l.get? i = some sm →
          (hasSameNameAndSignature m sm && canAccess sm) = false) →
        linkVirtualScan canAccess m l j0 = .ok none) ∧
      (∀ j sm, l.get? j = some sm →
        (hasSameNameAndSignature m sm && canAccess sm) = true →
        (∀ i, i < j → ∀ sm2, l.get? i = some sm2 →
          (hasSameNameAndSignature m sm2 && canAccess sm2) = false) →
        ((sm.isFinal = true →
           linkVirtualScan canAccess m l j0 = .error .linkageError) ∧
         (sm.isFinal = false →
           linkVirtualScan canAccess m l j0 = .ok (some (j0 + j))))) := by
  intro l
  induction l with
  | nil =>
    intro j0
    refine ⟨fun _ => rfl, ?_⟩
    intro j sm hget
    simp at hget
  | cons a rest ih =>
    intro j0
    constructor
    · intro hall
      have ha : (hasSameNameAndSignature m a && canAccess a) = false :=
        hall 0 a rfl
      have hrest : linkVirtualScan canAccess m rest (j0 + 1) = .ok none :=
        (ih (j0 + 1)).1 (fun i sm hget => hall (i + 1) sm (by simpa using hget))
      simp only [linkVirtualScan]
      by_cases hns : hasSameNameAndSignature m a = true
      · have hacc : canAccess a = false := by
          cases hc : canAccess a with
          | false => rfl
          | true => rw [hns, hc] at ha; exact absurd ha (by simp)
        rw [if_pos hns, if_neg (by simp [hacc])]
        exact hrest
      · rw [if_neg hns]
        exact hrest
    · intro j sm hget hp hmin
      cases j with
      | zero =>
        simp only [List.get?_cons_zero, Option.some.injEq] at hget
        subst hget
        have hns : hasSameNameAndSignature m a = true := by
          cases hc : hasSameNameAndSignature m a with
          | false => rw [hc] at hp; simp at hp
          | true => rfl
        have hacc : canAccess a = true := by
          cases hc : canAccess a with
          | false => rw [hc] at hp; simp at hp
          | true => rfl
        constructor
        · intro hfin
          simp only [linkVirtualScan, if_pos hns, if_pos hacc, if_pos hfin]
        · intro hfin
          simp only [linkVirtualScan, if_pos hns, if_pos hacc, hfin]
          simp
      | succ k =>
        have hget2 : rest.get? k = some sm := by simpa using hget
        have h0 : (hasSameNameAndSignature m a && canAccess a) = false :=
          hmin 0 (Nat.succ_pos k) a rfl
        have hmin2 : ∀ i, i < k → ∀ sm2, rest.get? i = some sm2 →
            (hasSameNameAndSignature m sm2 && canAccess sm2) = false := by
          intro i hi sm2 hg
          exact hmin (i + 1) (by omega) sm2 (by simpa using hg)
        have hrest := ((ih (j0 + 1)).2 k sm hget2 hp hmin2)
        have harith : j0 + 1 + k = j0 + (k + 1) := by omega
        constructor
        · intro hfin
          have := hrest.1 hfin
          simp only [linkVirtualScan]
          by_cases hns : hasSameNameAndSignature m a = true
          · have hacc : canAccess a = false := by
              cases hc : canAccess a with
              | false => rfl
              | true => rw [hns, hc] at h0; exact absurd h0 (by simp)
            rw [if_pos hns, if_neg (by simp [hacc])]
            exact this
          · rw [if_neg hns]
            exact this
        · intro hfin
          have := hrest.2 hfin
          rw [harith] at this
          simp only [linkVirtualScan]
          by_cases hns : hasSameNameAndSignature m a = true
          · have hacc : canAccess a = false := by
              cases hc : canAccess a with
              | false => rfl
              | true => rw [hns, hc] at h0; exact absurd h0 (by simp)
            rw [if_pos hns, if_neg (by simp [hacc])]
            exact this
          · rw [if_neg hns]
            exact this

/-- C1 (counterexample): the claim that the inherited vtable is scanned
FROM THE END is false of the code.  With an inherited vtable holding
two access-permitted name-and-signature matches at slots 0 and 1, the
from-the-end reading modelled from the claim overwrites slot 1, while
LinkVirtualMethods overwrites slot 0 — the two disagree at this
concrete input. -/
theorem linkVirtualMethods_scan_from_end_refuted :
    linkVirtualStepFromEnd (fun _ => true)
      [⟨"foo()V", true, false, false, false, 0, 0, 1⟩,
       ⟨"foo()V", true, false, false, false, 1, 0, 2⟩]
      ⟨"foo()V", true, false, false, false, 0, 0, 3⟩ =
      Except.ok [⟨"foo()V", true, false, false, false, 0, 0, 1⟩,
                 ⟨"foo()V", true, false, false, false, 1, 0, 3⟩] ∧
    linkVirtualStep (fun _ => true)
      [⟨"foo()V", true, false, false, false, 0, 0, 1⟩,
       ⟨"foo()V", true, false, false, false, 1, 0, 2⟩]
      ⟨"foo()V", true, false, false, false, 0, 0, 3⟩ =
      Except.ok [⟨"foo()V", true, false, false, false, 0, 0, 3⟩,
                 ⟨"foo()V", true, false, false, false, 1, 0, 2⟩] ∧
    linkVirtualStepFromEnd (fun _ => true)
      [⟨"foo()V", true, false, false, false, 0, 0, 1⟩,
       ⟨"foo()V", true, false, false, false, 1, 0, 2⟩]
      ⟨"foo()V", true, false, false, false, 0, 0, 3⟩ ≠
    linkVirtualStep (fun _ => true)
      [⟨"foo()V", true, false, false, false, 0, 0, 1⟩,
       ⟨"foo()V", true, false, false, false, 1, 0, 2⟩]
      ⟨"foo()V", true, false, false, false, 0, 0, 3⟩ := by
  refine ⟨rfl, rfl, ?_⟩
  intro h
  have h2 : ([⟨"foo()V", true, false, false, false, 0, 0, 1⟩,
              ⟨"foo()V", true, false, false, false, 1, 0, 3⟩] :
      List ArtMethod) =
      [⟨"foo()V", true, false, false, false, 0, 0, 3⟩,
       ⟨"foo()V", true, false, false, false, 1, 0, 2⟩] := by
    have h3 : (Except.ok ([⟨"foo()V", true, false, false, false, 0, 0, 1⟩,
        ⟨"foo()V", true, false, false, false, 1, 0, 3⟩] : List ArtMethod) :
        Except LinkError (List ArtMethod)) =
        Except.ok [⟨"foo()V", true, false, false, false, 0, 0, 3⟩,
                   ⟨"foo()V", true, false, false, false, 1, 0, 2⟩] := h
    exact Except.ok.inj h3
  exact absurd h2 (by decide)

/-- C1 (amended): for every class with a superclass linked by
LinkVirtualMethods and every declared virtual method m (the loop body
modelled by linkVirtualStep), the inherited vtable is scanned FROM THE
BEGINNING (lowest slot first) for a method with the same name and
signature whose override is access-permitted; at the first such slot
j, if the matched method is final linking fails with a LinkageError,
and otherwise m overwrites slot j in place with its method index set
to j — the inherited slot index is preserved, never a newly appended
slot; if no access-permitted match exists, m is appended at a fresh
slot at the end of the table. -/
theorem linkVirtualMethods_first_match_override
    (canAccess : ArtMethod → Bool) (vtable : List ArtMethod)
    (m : ArtMethod) :
    ((∀ i sm, vtable.get? i = some sm →
        (hasSameNameAndSignature m sm && canAccess sm) = false) →
      linkVirtualStep canAccess vtable m =
        .ok (vtable ++ [setMethodIndex m vtable.length])) ∧
    (∀ j sm, vtable.get? j = some sm →
      (hasSameNameAndSignature m sm && canAccess sm) = true →
      (∀ i, i < j → ∀ sm2, vtable.get? i = some sm2 →
        (hasSameNameAndSignature m sm2 && canAccess sm2) = false) →
      ((sm.isFinal = true →
         linkVirtualStep canAccess vtable m = .error .linkageError) ∧
       (sm.isFinal = false →
         linkVirtualStep canAccess vtable m =
           .ok (vtable.set j (setMethodIndex m j))))) := by
  obtain ⟨hnone, hsome⟩ := linkVirtualScan_spec canAccess m vtable 0
  constructor
  · intro hall
    simp only [linkVirtualStep, hnone hall]
  · intro j sm hget hp hmin
    obtain ⟨hfin, hnofin⟩ := hsome j sm hget hp hmin
    constructor
    · intro h
      simp only [linkVirtualStep, hfin h]
    · intro h
      have := hnofin h
      simp only [linkVirtualStep, this]
      simp

/-- Witness for the amended C1: a subclass method overriding the only
match, at slot 0 of a two-slot inherited vtable. -/
theorem linkVirtualMethods_first_match_override_witness :
    linkVirtualStep (fun _ => true)
      [⟨"foo()V", true, false, false, false, 0, 0, 1⟩,
       ⟨"bar()V", true, false, false, false, 1, 0, 2⟩]
      ⟨"foo()V", true, false, false, false, 0, 0, 3⟩ =
      Except.ok [⟨"foo()V", true, false, false, false, 0, 0, 3⟩,
                 ⟨"bar()V", true, false, false, false, 1, 0, 2⟩] := by
  have h := (linkVirtualMethods_first_match_override (fun _ => true)
    [⟨"foo()V", true, false, false, false, 0, 0, 1⟩,
     ⟨"bar()V", true, false, false, false, 1, 0, 2⟩]
    ⟨"foo()V", true, false, false, false, 0, 0, 3⟩).2
  have h2 := (h 0 ⟨"foo()V", true, false, false, false, 0, 0, 1⟩
    (by decide) (by decide) (by omega)).2 (by decide)
  rw [h2]
  rfl

/- ===================================================================
   C10: the slot-equals-method-index invariant of the vtable.
   =================================================================== -/

theorem linkVirtualStep_inv (canAccess : ArtMethod → Bool)
    (vt : List ArtMethod) (m : ArtMethod) (vt2 : List ArtMethod)
    (hinv : VtableInv vt) (hm : m.isMiranda = false)
    (hok : linkVirtualStep canAccess vt m = .ok vt2) : VtableInv vt2 := by
  unfold linkVirtualStep at hok
  cases hscan : linkVirtualScan canAccess m vt 0 with
  | error e => rw [hscan] at hok; exact absurd hok (by simp)
  | ok r =>
    rw [hscan] at hok
    cases r with
    | some j =>
      simp only [Except.ok.injEq] at hok
      subst hok
      intro i hi
      have hlen : i < vt.length := by simpa using hi
      by_cases hij : j = i
      · subst hij
        have hget : (vt.set j (setMethodIndex m j)).get ⟨j, hi⟩ =
            setMethodIndex m j := by
          simp [List.get_eq_getElem]
        rw [hget]
        simp [setMethodIndex, hm]
      · have hget : (vt.set j (setMethodIndex m j)).get ⟨i, hi⟩ =
            vt.get ⟨i, hlen⟩ := by
          simp [List.get_eq_getElem, List.getElem_set_ne hij]
        rw [hget]
        exact hinv i hlen
    | none =>
      simp only [Except.ok.injEq] at hok
      subst hok
      intro i hi
      have hlen : i < vt.length + 1 := by simpa using hi
      by_cases hlt : i < vt.length
      · have hget : (vt ++ [setMethodIndex m vt.length]).get ⟨i, hi⟩ =
            vt.get ⟨i, hlt⟩ := by
          simp [List.get_eq_getElem, List.getElem_append_left hlt]
        rw [hget]
        exact hinv i hlt
      · have hieq : i = vt.length := by omega
        have hget : (vt ++ [setMethodIndex m vt.length]).get ⟨i, hi⟩ =
            setMethodIndex m vt.length := by
          subst hieq
          simp [List.get_eq_getElem]
        rw [hget]
        constructor
        · intro hcontr
          simp only [setMethodIndex] at hcontr
          rw [hm] at hcontr
          exact absurd hcontr (by simp)
        · intro _
          simp only [setMethodIndex]
          omega

theorem linkVirtualFold_inv (canAccess : ArtMethod → Bool) :
    ∀ (ms : List ArtMethod) (vt vt2 : List ArtMethod),
      VtableInv vt → (∀ m ∈ ms, m.isMiranda = false) →
      linkVirtualFold canAccess vt ms = .ok vt2 → VtableInv vt2 := by
  intro ms
  induction ms with
  | nil =>
    intro vt vt2 hinv _ hok
    simp only [linkVirtualFold, Except.ok.injEq] at hok
    subst hok
    exact hinv
  | cons m rest ih =>
    intro vt vt2 hinv hms hok
    simp only [linkVirtualFold] at hok
    cases hstep : linkVirtualStep canAccess vt m with
    | error e => rw [hstep] at hok; exact absurd hok (by simp)
    | ok vt1 =>
      rw [hstep] at hok
      have hinv1 := linkVirtualStep_inv canAccess vt m vt1 hinv
        (hms m (by simp)) hstep
      exact ih vt1 vt2 hinv1 (fun x hx => hms x (by simp [hx])) hok

theorem rootVtable_get :
    ∀ (ms : List ArtMethod) (j i : Nat) (h : i < (rootVtable j ms).length)
      (h2 : i < ms.length),
      (rootVtable j ms).get ⟨i, h⟩ =
        setMethodIndex (ms.get ⟨i, h2⟩) ((j + i) % 65536) := by
  intro ms
  induction ms with
  | nil => intro j i h h2; simp at h2
  | cons m rest ih =>
    intro j i h h2
    cases i with
    | zero => simp [rootVtable, List.get_eq_getElem]
    | succ k =>
      have hk : k < (rootVtable (j + 1) rest).length := by
        simp only [rootVtable, List.length_cons] at h
        simpa using Nat.lt_of_succ_lt_succ h
      have hk2 : k < rest.length := by simpa using Nat.lt_of_succ_lt_succ h2
      have hih := ih (j + 1) k hk hk2
      simp only [List.get_eq_getElem] at hih ⊢
      simp only [rootVtable, List.getElem_cons_succ]
      rw [hih]
      have harith : j + 1 + k = j + (k + 1) := by omega
      rw [harith]

theorem rootVtable_length (ms : List ArtMethod) :
    ∀ j, (rootVtable j ms).length = ms.length := by
  induction ms with
  | nil => intro j; rfl
  | cons m rest ih =>
    intro j
    simp only [rootVtable, List.length_cons, ih (j + 1)]

theorem linkVirtualMethods_inv (canAccess : ArtMethod → Bool)
    (superVtable : Option (List ArtMethod)) (virtuals : List ArtMethod)
    (vt : List ArtMethod)
    (hsuper : ∀ sv, superVtable = some sv → VtableInv sv)
    (hvm : ∀ m ∈ virtuals, m.isMiranda = false)
    (hok : linkVirtualMethods canAccess superVtable virtuals = .ok vt) :
    VtableInv vt := by
  cases superVtable with
  | some sv =>
    simp only [linkVirtualMethods] at hok
    cases hfold : linkVirtualFold canAccess sv virtuals with
    | error e => rw [hfold] at hok; exact absurd hok (by simp)
    | ok vt1 =>
      rw [hfold] at hok
      simp only [] at hok
      by_cases hlen : vt1.length < 65536
      · rw [if_pos hlen] at hok
        simp only [Except.ok.injEq] at hok
        subst hok
        exact linkVirtualFold_inv canAccess virtuals sv vt1 (hsuper sv rfl)
          hvm hfold
      · rw [if_neg hlen] at hok
        exact absurd hok (by simp)
  | none =>
    simp only [linkVirtualMethods] at hok
    by_cases hlen : virtuals.length < 65536
    · rw [if_pos hlen] at hok
      simp only [Except.ok.injEq] at hok
      subst hok
      intro i hi
      have h2 : i < virtuals.length := by
        rw [rootVtable_length virtuals 0] at hi
        exact hi
      rw [rootVtable_get virtuals 0 i hi h2]
      have hmir := hvm (virtuals.get ⟨i, h2⟩) (List.get_mem virtuals i h2)
      have hlt : i < 65536 := by omega
      constructor
      · intro hcontr
        simp only [setMethodIndex] at hcontr
        rw [hmir] at hcontr
        exact absurd hcontr (by simp)
      · intro _
        simp only [setMethodIndex]
        omega
    · rw [if_neg hlen] at hok
      exact absurd hok (by simp)

theorem appendMirandas_length (ms : List ArtMethod) :
    ∀ j, (appendMirandas j ms).length = ms.length := by
  induction ms with
  | nil => intro j; rfl
  | cons m rest ih =>
    intro j
    simp only [appendMirandas, List.length_cons, ih (j + 1)]

theorem appendMirandas_get :
    ∀ (ms : List ArtMethod) (j k : Nat) (h : k < (appendMirandas j ms).length)
      (h2 : k < ms.length),
      (appendMirandas j ms).get ⟨k, h⟩ =
        { (ms.get ⟨k, h2⟩) with
          isMiranda := true
          methodIndex := (j + k) % 65536 } := by
  intro ms
  induction ms with
  | nil => intro j k h h2; simp at h2
  | cons m rest ih =>
    intro j k h h2
    cases k with
    | zero => simp [appendMirandas, List.get_eq_getElem]
    | succ k2 =>
      have hk : k2 < (appendMirandas (j + 1) rest).length := by
        simp only [appendMirandas, List.length_cons] at h
        simpa using Nat.lt_of_succ_lt_succ h
      have hk2 : k2 < rest.length := by simpa using Nat.lt_of_succ_lt_succ h2
      have hih := ih (j + 1) k2 hk hk2
      simp only [List.get_eq_getElem] at hih ⊢
      simp only [appendMirandas, List.getElem_cons_succ]
      rw [hih]
      have harith : j + 1 + k2 = j + (k2 + 1) := by omega
      rw [harith]

theorem linkInterfaceMethods_vtable_shape (kImtSize : Nat)
    (conflict : ArtMethod) (iftable : List (List ArtMethod))
    (vtable virtuals : List ArtMethod) (res : IfLinkResult)
    (hok : linkInterfaceMethods kImtSize conflict iftable vtable virtuals =
      .ok res) :
    ∃ ms, res.vtable = vtable ++ appendMirandas vtable.length ms := by
  simp only [linkInterfaceMethods] at hok
  cases hproc : processIfTable kImtSize conflict vtable
      { imt := List.replicate kImtSize none, imtChanged := false,
        mirandas := [] } iftable with
  | error e => rw [hproc] at hok; exact absurd hok (by simp)
  | ok p =>
    rw [hproc] at hok
    simp only [Except.ok.injEq] at hok
    subst hok
    exact ⟨p.1.mirandas, rfl⟩

theorem vtableInv_append_mirandas (vt : List ArtMethod)
    (ms : List ArtMethod) (hinv : VtableInv vt) :
    VtableInv (vt ++ appendMirandas vt.length ms) := by
  intro i hi
  by_cases hlt : i < vt.length
  · have hget : (vt ++ appendMirandas vt.length ms).get ⟨i, hi⟩ =
        vt.get ⟨i, hlt⟩ := by
      simp [List.get_eq_getElem, List.getElem_append_left hlt]
    rw [hget]
    exact hinv i hlt
  · have hlen : i < vt.length + ms.length := by
      simp only [List.length_append, appendMirandas_length] at hi
      exact hi
    have hk2 : i - vt.length < ms.length := by omega
    have hk : i - vt.length < (appendMirandas vt.length ms).length := by
      rw [appendMirandas_length]
      exact hk2
    have hget : (vt ++ appendMirandas vt.length ms).get ⟨i, hi⟩ =
        (appendMirandas vt.length ms).get ⟨i - vt.length, hk⟩ := by
      simp only [List.get_eq_getElem]
      exact List.getElem_append_right (by omega)
    rw [hget, appendMirandas_get ms vt.length (i - vt.length) hk hk2]
    constructor
    · intro _
      have harith : vt.length + (i - vt.length) = i := by omega
      simp [harith]
    · intro hcontr
      simp at hcontr

/-- C10: after LinkVirtualMethods and LinkInterfaceMethods succeed on a
class, every vtable slot i holds a method whose method-index field
equals i, except synthesized miranda methods whose index is i masked
to 16 bits — override in place, append, root-class build and miranda
append all maintain the slot-equals-method-index invariant. -/
theorem vtable_slot_equals_method_index (canAccess : ArtMethod → Bool)
    (superVtable : Option (List ArtMethod)) (virtuals : List ArtMethod)
    (kImtSize : Nat) (conflict : ArtMethod)
    (iftable : List (List ArtMethod)) (vt1 : List ArtMethod)
    (res : IfLinkResult)
    (hsuper : match superVtable with
              | none => True
              | some sv => VtableInv sv)
    (hvm : ∀ m ∈ virtuals, m.isMiranda = false)
    (h1 : linkVirtualMethods canAccess superVtable virtuals = .ok vt1)
    (h2 : linkInterfaceMethods kImtSize conflict iftable vt1 virtuals =
      .ok res) :
    VtableInv res.vtable := by
  have hinv1 : VtableInv vt1 := by
    apply linkVirtualMethods_inv canAccess superVtable virtuals vt1 ?_ hvm h1
    intro sv hsv
    rw [hsv] at hsuper
    exact hsuper
  obtain ⟨ms, hshape⟩ := linkInterfaceMethods_vtable_shape kImtSize conflict
    iftable vt1 virtuals res h2
  rw [hshape]
  exact vtableInv_append_mirandas vt1 ms hinv1

/-- Witness for C10: a class with one inherited slot, one overriding
method, and one unimplemented interface method that becomes a miranda
method at the appended slot; the invariant holds of the resulting
two-slot vtable. -/
theorem vtable_slot_equals_method_index_witness :
    VtableInv [⟨"foo()V", true, false, false, false, 0, 0, 2⟩,
               ⟨"baz()V", true, false, true, true, 1, 5, 3⟩] := by
  have h := vtable_slot_equals_method_index (fun _ => true)
    (some [⟨"foo()V", true, false, false, false, 0, 0, 1⟩])
    [⟨"foo()V", true, false, false, false, 7, 0, 2⟩]
    2 ⟨"cf", false, false, false, false, 0, 0, 9⟩
    [[⟨"baz()V", true, false, true, false, 0, 5, 3⟩]]
    [⟨"foo()V", true, false, false, false, 0, 0, 2⟩]
    { vtable := [⟨"foo()V", true, false, false, false, 0, 0, 2⟩,
                 ⟨"baz()V", true, false, true, true, 1, 5, 3⟩]
      virtuals := [⟨"foo()V", true, false, false, false, 7, 0, 2⟩,
                   ⟨"baz()V", true, false, true, true, 1, 5, 3⟩]
      imt := [⟨"cf", false, false, false, false, 0, 0, 9⟩,
              ⟨"cf", false, false, false, false, 0, 0, 9⟩]
      methodArrays := [[⟨"baz()V", true, false, true, false, 0, 5, 3⟩]] }
    (by
      exact (by unfold VtableInv; decide :
        VtableInv [⟨"foo()V", true, false, false, false, 0, 0, 1⟩]))
    (by decide) (by rfl) (by rfl)
  exact h

/- ===================================================================
   C3: first writer wins an imt slot, later collisions install the
   conflict sentinel.
   =================================================================== -/

theorem imtFoldWriters_nil (conflict : ArtMethod) (cur : Option ArtMethod) :
    imtFoldWriters conflict [] cur = cur := rfl

theorem imtFoldWriters_occupied (conflict : ArtMethod)
    (x : ArtMethod) :
    ∀ ws : List (Nat × ArtMethod), ws ≠ [] →
      imtFoldWriters conflict ws (some x) = some conflict := by
  intro ws
  induction ws generalizing x with
  | nil => intro h; exact absurd rfl h
  | cons w rest ih =>
    intro _
    show imtFoldWriters conflict rest (imtApplyWriter conflict (some x) w.2) =
      some conflict
    simp only [imtApplyWriter]
    cases hr : rest with
    | nil => rfl
    | cons a b =>
      rw [← hr]
      exact ih conflict (by rw [hr]; simp)

theorem imtFoldWriters_append (conflict : ArtMethod)
    (ps qs : List (Nat × ArtMethod)) (cur : Option ArtMethod) :
    imtFoldWriters conflict (ps ++ qs) cur =
      imtFoldWriters conflict qs (imtFoldWriters conflict ps cur) := by
  simp [imtFoldWriters, List.foldl_append]

theorem slotOutcome_eq_foldWriters (conflict : ArtMethod)
    (ws : List (Nat × ArtMethod)) :
    slotOutcome conflict ws = (imtFoldWriters conflict ws none).getD conflict := by
  cases ws with
  | nil => rfl
  | cons w rest =>
    cases rest with
    | nil => rfl
    | cons w2 rest2 =>
      show slotOutcome conflict (w :: w2 :: rest2) =
        (imtFoldWriters conflict (w2 :: rest2)
          (imtApplyWriter conflict none w.2)).getD conflict
      simp only [imtApplyWriter]
      rw [imtFoldWriters_occupied conflict w.2 (w2 :: rest2) (by simp)]
      rfl

theorem imtFoldWriters_none_of_nil (conflict : ArtMethod)
    (ws : List (Nat × ArtMethod))
    (h : imtFoldWriters conflict ws none = none) : ws = [] := by
  cases ws with
  | nil => rfl
  | cons w rest =>
    exfalso
    show False
    have : imtFoldWriters conflict (w :: rest) none =
        imtFoldWriters conflict rest (some w.2) := rfl
    rw [this] at h
    cases hr : rest with
    | nil =>
      rw [hr] at h
      simp [imtFoldWriters_nil] at h
    | cons a b =>
      rw [hr] at h
      rw [imtFoldWriters_occupied conflict w.2 (a :: b) (by simp)] at h
      simp at h

theorem processIfaceMethod_inv (kImtSize : Nat) (conflict : ArtMethod)
    (vtable : List ArtMethod) (st st2 : IfBuildState) (im entry : ArtMethod)
    (ps : List (Nat × ArtMethod)) (hk : 0 < kImtSize)
    (hinv : ImtInv kImtSize conflict ps st)
    (hok : processIfaceMethod kImtSize conflict vtable st im =
      .ok (st2, entry)) :
    ImtInv kImtSize conflict (ps ++ installsOfMethod vtable im) st2 := by
  obtain ⟨hlen, hslots, hch⟩ := hinv
  simp only [processIfaceMethod] at hok
  cases hsearch : vtableBackSearch im vtable with
  | none =>
    rw [hsearch] at hok
    have hinst : installsOfMethod vtable im = [] := by
      simp [installsOfMethod, hsearch]
    rw [hinst, List.append_nil]
    cases hfind : st.mirandas.find? (fun mm => hasSameNameAndSignature im mm)
        with
    | some mm =>
      rw [hfind] at hok
      simp only [Except.ok.injEq, Prod.mk.injEq] at hok
      rw [← hok.1]
      exact ⟨hlen, hslots, hch⟩
    | none =>
      rw [hfind] at hok
      simp only [Except.ok.injEq, Prod.mk.injEq] at hok
      rw [← hok.1]
      exact ⟨hlen, hslots, hch⟩
  | some p =>
    obtain ⟨k, vm⟩ := p
    rw [hsearch] at hok
    simp only [] at hok
    have hinst : installsOfMethod vtable im = [(im.dexMethodIndex, vm)] := by
      simp [installsOfMethod, hsearch]
    by_cases hacc : vm.isAbstract = false ∧ vm.isPublic = false
    · rw [if_pos hacc] at hok
      exact absurd hok (by simp)
    · rw [if_neg hacc] at hok
      have hidx : im.dexMethodIndex % kImtSize < kImtSize :=
        Nat.mod_lt _ hk
      cases hcur : st.imt.getD (im.dexMethodIndex % kImtSize) none with
      | none =>
        rw [hcur] at hok
        simp only [Except.ok.injEq, Prod.mk.injEq] at hok
        rw [← hok.1, hinst]
        refine ⟨by simp [hlen], ?_, by simp⟩
        intro s hs
        rw [List.filter_append, imtFoldWriters_append]
        by_cases hseq : im.dexMethodIndex % kImtSize = s
        · have hilen : im.dexMethodIndex % kImtSize < st.imt.length := by
            omega
          have hfilter : ([(im.dexMethodIndex, vm)].filter
              (fun w => w.1 % kImtSize = s)) = [(im.dexMethodIndex, vm)] := by
            simp [hseq]
          have hget : (st.imt.set (im.dexMethodIndex % kImtSize)
              (some vm)).getD s none = some vm := by
            rw [← hseq]
            simp [List.getD, List.getElem?_set_self, hilen]
          rw [hfilter, hget, ← hslots s hs, ← hseq, hcur]
          rfl
        · have hfilter : ([(im.dexMethodIndex, vm)].filter
              (fun w => w.1 % kImtSize = s)) = [] := by
            simp [hseq]
          rw [hfilter, imtFoldWriters_nil]
          have hget : (st.imt.set (im.dexMethodIndex % kImtSize)
              (some vm)).getD s none = st.imt.getD s none := by
            simp [List.getD, List.getElem?_set_ne hseq]
          rw [hget]
          exact hslots s hs
      | some x =>
        rw [hcur] at hok
        simp only [Except.ok.injEq, Prod.mk.injEq] at hok
        rw [← hok.1, hinst]
        have hpsne : ps ≠ [] := by
          intro hnil
          rw [hnil] at hslots
          have := hslots (im.dexMethodIndex % kImtSize) hidx
          simp only [List.filter_nil, imtFoldWriters_nil] at this
          rw [hcur] at this
          exact absurd this (by simp)
        refine ⟨by simp [hlen], ?_, by simp [hch, hpsne]⟩
        intro s hs
        rw [List.filter_append, imtFoldWriters_append]
        by_cases hseq : im.dexMethodIndex % kImtSize = s
        · have hilen : im.dexMethodIndex % kImtSize < st.imt.length := by
            omega
          have hfilter : ([(im.dexMethodIndex, vm)].filter
              (fun w => w.1 % kImtSize = s)) = [(im.dexMethodIndex, vm)] := by
            simp [hseq]
          have hget : (st.imt.set (im.dexMethodIndex % kImtSize)
              (some conflict)).getD s none = some conflict := by
            rw [← hseq]
            simp [List.getD, List.getElem?_set_self, hilen]
          rw [hfilter, hget, ← hslots s hs, ← hseq, hcur]
          rfl
        · have hfilter : ([(im.dexMethodIndex, vm)].filter
              (fun w => w.1 % kImtSize = s)) = [] := by
            simp [hseq]
          rw [hfilter, imtFoldWriters_nil]
          have hget : (st.imt.set (im.dexMethodIndex % kImtSize)
              (some conflict)).getD s none = st.imt.getD s none := by
            simp [List.getD, List.getElem?_set_ne hseq]
          rw [hget]
          exact hslots s hs

theorem processIfaceMethods_inv (kImtSize : Nat) (conflict : ArtMethod)
    (vtable : List ArtMethod) (hk : 0 < kImtSize) :
    ∀ (ms : List ArtMethod) (st st2 : IfBuildState)
      (arr : List ArtMethod) (ps : List (Nat × ArtMethod)),
      ImtInv kImtSize conflict ps st →
      processIfaceMethods kImtSize conflict vtable st ms = .ok (st2, arr) →
      ImtInv kImtSize conflict (ps ++ installsOfMethods vtable ms) st2 := by
  intro ms
  induction ms with
  | nil =>
    intro st st2 arr ps hinv hok
    simp only [processIfaceMethods, Except.ok.injEq, Prod.mk.injEq] at hok
    rw [← hok.1]
    simpa [installsOfMethods] using hinv
  | cons im ims ih =>
    intro st st2 arr ps hinv hok
    simp only [processIfaceMethods] at hok
    cases hstep : processIfaceMethod kImtSize conflict vtable st im with
    | error e => rw [hstep] at hok; exact absurd hok (by simp)
    | ok p =>
      obtain ⟨stm, e⟩ := p
      rw [hstep] at hok
      simp only [] at hok
      cases hrest : processIfaceMethods kImtSize conflict vtable stm ims with
      | error e2 => rw [hrest] at hok; exact absurd hok (by simp)
      | ok q =>
        obtain ⟨st3, entries⟩ := q
        rw [hrest] at hok
        simp only [Except.ok.injEq, Prod.mk.injEq] at hok
        have hinv1 := processIfaceMethod_inv kImtSize conflict vtable st stm
          im e ps hk hinv hstep
        have hinv2 := ih stm st3 entries (ps ++ installsOfMethod vtable im)
          hinv1 hrest
        rw [← hok.1]
        simpa [installsOfMethods, List.append_assoc] using hinv2

theorem installsOfMethods_append (vtable : List ArtMethod)
    (ms1 ms2 : List ArtMethod) :
    installsOfMethods vtable (ms1 ++ ms2) =
      installsOfMethods vtable ms1 ++ installsOfMethods vtable ms2 := by
  induction ms1 with
  | nil => simp [installsOfMethods]
  | cons im ims ih =>
    simp only [List.cons_append, installsOfMethods, List.append_eq, ih,
      List.append_assoc]

theorem installsOfMethods_eq_filterMap (vtable : List ArtMethod) :
    ∀ ms : List ArtMethod,
      installsOfMethods vtable ms = ms.filterMap
        (fun im => (vtableBackSearch im vtable).map
          (fun p => (im.dexMethodIndex, p.2))) := by
  intro ms
  induction ms with
  | nil => rfl
  | cons im ims ih =>
    simp only [installsOfMethods, installsOfMethod, List.filterMap_cons, ih]
    cases hsearch : vtableBackSearch im vtable with
    | none => simp [hsearch]
    | some p => simp [hsearch]

theorem imtInstalls_eq (vtable : List ArtMethod)
    (iftable : List (List ArtMethod)) :
    imtInstalls vtable iftable = installsOfMethods vtable iftable.flatten := by
  rw [installsOfMethods_eq_filterMap]
  rfl

theorem processIfTable_inv (kImtSize : Nat) (conflict : ArtMethod)
    (vtable : List ArtMethod) (hk : 0 < kImtSize) :
    ∀ (iftable : List (List ArtMethod)) (st st2 : IfBuildState)
      (arrs : List (List ArtMethod)) (ps : List (Nat × ArtMethod)),
      ImtInv kImtSize conflict ps st →
      processIfTable kImtSize conflict vtable st iftable = .ok (st2, arrs) →
      ImtInv kImtSize conflict
        (ps ++ installsOfMethods vtable iftable.flatten) st2 := by
  intro iftable
  induction iftable with
  | nil =>
    intro st st2 arrs ps hinv hok
    simp only [processIfTable, Except.ok.injEq, Prod.mk.injEq] at hok
    rw [← hok.1]
    simpa [installsOfMethods] using hinv
  | cons ms rest ih =>
    intro st st2 arrs ps hinv hok
    simp only [processIfTable] at hok
    by_cases hempty : ms.isEmpty
    · rw [if_pos hempty] at hok
      simp only [] at hok
      cases hrest : processIfTable kImtSize conflict vtable st rest with
      | error e => rw [hrest] at hok; exact absurd hok (by simp)
      | ok q =>
        obtain ⟨st3, arrs3⟩ := q
        rw [hrest] at hok
        simp only [Except.ok.injEq, Prod.mk.injEq] at hok
        have hms : ms = [] := List.isEmpty_iff.mp hempty
        have := ih st st3 arrs3 ps hinv hrest
        rw [← hok.1]
        simpa [hms, List.flatten_cons, installsOfMethods] using this
    · rw [if_neg hempty] at hok
      cases hproc : processIfaceMethods kImtSize conflict vtable st ms with
      | error e =>
        rw [hproc] at hok
        exact absurd hok (by simp)
      | ok p =>
        obtain ⟨stm, entries⟩ := p
        rw [hproc] at hok
        simp only [] at hok
        cases hrest : processIfTable kImtSize conflict vtable stm rest with
        | error e => rw [hrest] at hok; exact absurd hok (by simp)
        | ok q =>
          obtain ⟨st3, arrs3⟩ := q
          rw [hrest] at hok
          simp only [Except.ok.injEq, Prod.mk.injEq] at hok
          have hinv1 := processIfaceMethods_inv kImtSize conflict vtable hk
            ms st stm entries ps hinv hproc
          have hinv2 := ih stm st3 arrs3 (ps ++ installsOfMethods vtable ms)
            hinv1 hrest
          rw [← hok.1]
          simpa [List.flatten_cons, installsOfMethods_append,
            List.append_assoc] using hinv2

/-- C3: for every non-interface class linked by LinkInterfaceMethods,
every interface method implemented by a method found in the vtable is
installed into the fixed-size interface method table at slot
dexMethodIndex % kImtSize; a slot with exactly one writer holds that
writer (the first writer wins the empty slot), and any later collision
on an occupied slot installs the shared conflict sentinel there, which
is also the default for untouched slots. -/
theorem linkInterfaceMethods_imt_first_writer_wins (kImtSize : Nat)
    (conflict : ArtMethod) (iftable : List (List ArtMethod))
    (vtable virtuals : List ArtMethod) (res : IfLinkResult)
    (hk : 0 < kImtSize)
    (hok : linkInterfaceMethods kImtSize conflict iftable vtable virtuals =
      .ok res) :
    res.imt.length = kImtSize ∧
    ∀ s, s < kImtSize →
      res.imt.getD s conflict =
        slotOutcome conflict
          ((imtInstalls vtable iftable).filter
            (fun w => w.1 % kImtSize = s)) := by
  simp only [linkInterfaceMethods] at hok
  cases hproc : processIfTable kImtSize conflict vtable
      { imt := List.replicate kImtSize none, imtChanged := false,
        mirandas := [] } iftable with
  | error e => rw [hproc] at hok; exact absurd hok (by simp)
  | ok p =>
    obtain ⟨st, arrays⟩ := p
    rw [hproc] at hok
    simp only [Except.ok.injEq] at hok
    have hinv0 : ImtInv kImtSize conflict []
        { imt := List.replicate kImtSize none, imtChanged := false,
          mirandas := [] } := by
      refine ⟨by simp, ?_, by simp⟩
      intro s hs
      simp [List.getD, imtFoldWriters]
    have hinv := processIfTable_inv kImtSize conflict vtable hk iftable _ st
      arrays [] hinv0 hproc
    simp only [List.nil_append] at hinv
    obtain ⟨hlen, hslots, hch⟩ := hinv
    have hws : imtInstalls vtable iftable =
        installsOfMethods vtable iftable.flatten := imtInstalls_eq _ _
    subst hok
    cases hchanged : st.imtChanged with
    | true =>
      constructor
      · simp [hchanged, hlen]
      · intro s hs
        have hslen : s < st.imt.length := by omega
        have htriv : (true = true) := rfl
        show (if true = true then List.map (fun o => o.getD conflict) st.imt
          else List.replicate kImtSize conflict).getD s conflict = _
        rw [if_pos htriv]
        have hmap2 : (st.imt.map (fun o => o.getD conflict)).getD s conflict =
            (st.imt.getD s none).getD conflict := by
          simp [List.getD, List.getElem?_map, List.getElem?_eq_getElem hslen]
        rw [hmap2, hslots s hs, hws, slotOutcome_eq_foldWriters]
    | false =>
      rw [hchanged] at hch
      have hempty : installsOfMethods vtable iftable.flatten = [] := by
        by_contra hne
        simp [hne] at hch
      constructor
      · simp [hchanged]
      · intro s hs
        rw [hws, hempty]
        simp only [List.filter_nil, slotOutcome]
        simp [hchanged, List.getD]

/-- Witness for C3: two interface methods whose dex indices collide at
slot 2 modulo kImtSize = 4 leave the conflict sentinel there, a single
writer wins slot 1, and the untouched slots hold the conflict
sentinel. -/
theorem linkInterfaceMethods_imt_first_writer_wins_witness :
    ([⟨"cf", false, false, false, false, 0, 0, 99⟩,
      ⟨"qux()V", true, false, false, false, 2, 0, 22⟩,
      ⟨"cf", false, false, false, false, 0, 0, 99⟩,
      ⟨"cf", false, false, false, false, 0, 0, 99⟩] :
      List ArtMethod).getD 1 ⟨"cf", false, false, false, false, 0, 0, 99⟩ =
      ⟨"qux()V", true, false, false, false, 2, 0, 22⟩ := by
  have h := linkInterfaceMethods_imt_first_writer_wins 4
    ⟨"cf", false, false, false, false, 0, 0, 99⟩
    [[⟨"foo()V", true, false, true, false, 0, 2, 30⟩,
      ⟨"bar()V", true, false, true, false, 1, 6, 31⟩,
      ⟨"qux()V", true, false, true, false, 2, 1, 32⟩]]
    [⟨"foo()V", true, false, false, false, 0, 0, 20⟩,
     ⟨"bar()V", true, false, false, false, 1, 0, 21⟩,
     ⟨"qux()V", true, false, false, false, 2, 0, 22⟩]
    [⟨"foo()V", true, false, false, false, 0, 0, 20⟩,
     ⟨"bar()V", true, false, false, false, 1, 0, 21⟩,
     ⟨"qux()V", true, false, false, false, 2, 0, 22⟩]
    { vtable := [⟨"foo()V", true, false, false, false, 0, 0, 20⟩,
                 ⟨"bar()V", true, false, false, false, 1, 0, 21⟩,
                 ⟨"qux()V", true, false, false, false, 2, 0, 22⟩]
      virtuals := [⟨"foo()V", true, false, false, false, 0, 0, 20⟩,
                   ⟨"bar()V", true, false, false, false, 1, 0, 21⟩,
                   ⟨"qux()V", true, false, false, false, 2, 0, 22⟩]
      imt := [⟨"cf", false, false, false, false, 0, 0, 99⟩,
              ⟨"qux()V", true, false, false, false, 2, 0, 22⟩,
              ⟨"cf", false, false, false, false, 0, 0, 99⟩,
              ⟨"cf", false, false, false, false, 0, 0, 99⟩]
      methodArrays := [[⟨"foo()V", true, false, false, false, 0, 0, 20⟩,
                        ⟨"bar()V", true, false, false, false, 1, 0, 21⟩,
                        ⟨"qux()V", true, false, false, false, 2, 0, 22⟩]] }
    (by decide) (by rfl)
  have h2 := h.2 1 (by decide)
  exact h2.trans (by rfl)

/- ===================================================================
   C4, C5, C6: class table insertion, error caching, and initializer
   exception wrapping.
   =================================================================== -/

theorem isResolved_not_erroneous (s : ClassStatus)
    (h : isResolvedStatus s = true) : isErroneousStatus s = false := by
  cases s <;> simp_all [isResolvedStatus, isErroneousStatus, statusRank]

theorem ensureResolved_of_resolved (tid : Nat) (c : RClass)
    (h : isResolvedStatus c.status = true) :
    ensureResolved tid c = (.returns c, c) := by
  have herr := isResolved_not_erroneous c.status h
  simp [ensureResolved, h, herr]

theorem lookupClassFromTableLocked_append (d : String) (loader : Option Nat)
    (h : Nat) (t1 t2 : ClassTable) :
    lookupClassFromTableLocked d loader h (t1 ++ t2) =
      match lookupClassFromTableLocked d loader h t1 with
      | some r => some r
      | none => lookupClassFromTableLocked d loader h t2 := by
  unfold lookupClassFromTableLocked
  rw [List.find?_append]
  cases hf : t1.find? (fun e =>
      decide (e.1 = h) && (decide (e.2.loader = loader) &&
        decide (e.2.descriptor = d))) with
  | none => simp [hf]
  | some x => simp [hf]

theorem lookupClassFromTableLocked_single_hit (d : String)
    (loader : Option Nat) (h : Nat) (k : RClass)
    (hd : k.descriptor = d) (hl : k.loader = loader) :
    lookupClassFromTableLocked d loader h [(h, k)] = some k := by
  unfold lookupClassFromTableLocked
  simp [List.find?, hd, hl]

/-- C4: InsertClass returns any entry with the same descriptor and
loader already in the table and leaves the table unchanged; otherwise
it inserts the given class and reports no pre-existing entry;
consequently two Define insertions for the same descriptor and loader
yield exactly one inserted class object, the losing definer receiving
(through EnsureResolved) the object of the winner rather than its
own. -/
theorem insertClass_idempotent_define (t : ClassTable) (k1 k2 : RClass)
    (tid1 tid2 : Nat) :
    (∀ d kl h existing,
      lookupClassFromTableLocked d kl.loader h t = some existing →
      insertClass d kl h t = (some existing, t)) ∧
    (∀ d (kl : RClass) h,
      lookupClassFromTableLocked d kl.loader h t = none →
      insertClass d kl h t = (none, t ++ [(h, kl)])) ∧
    (k2.descriptor = k1.descriptor → k2.loader = k1.loader →
      lookupClassFromTableLocked k1.descriptor k1.loader
        (stringHash k1.descriptor) t = none →
      isResolvedStatus k1.status = true →
      defineClassInsert tid1 t k1 =
        (.returns k1, t ++ [(stringHash k1.descriptor, k1)]) ∧
      defineClassInsert tid2 (t ++ [(stringHash k1.descriptor, k1)]) k2 =
        (.returns k1, t ++ [(stringHash k1.descriptor, k1)])) := by
  refine ⟨?_, ?_, ?_⟩
  · intro d kl h existing hlk
    simp [insertClass, hlk]
  · intro d kl h hlk
    simp [insertClass, hlk]
  · intro hdesc hload hmiss hres
    constructor
    · simp [defineClassInsert, insertClass, hmiss]
    · have hlk2 : lookupClassFromTableLocked k2.descriptor k2.loader
          (stringHash k2.descriptor)
          (t ++ [(stringHash k1.descriptor, k1)]) = some k1 := by
        rw [hdesc, hload, lookupClassFromTableLocked_append, hmiss]
        exact lookupClassFromTableLocked_single_hit k1.descriptor k1.loader
          (stringHash k1.descriptor) k1 rfl rfl
      have hens := ensureResolved_of_resolved tid2 k1 hres
      simp [defineClassInsert, insertClass, hlk2, hens]

/-- Witness for C4: two definers race on descriptor LFoo; with the
bootstrap loader; the first inserts its object, the second receives
the object of the first and the table is unchanged by the second
insert. -/
theorem insertClass_idempotent_define_witness :
    defineClassInsert 5 []
      ⟨"LFoo;", none, .kStatusResolved, none, 0, 1⟩ =
      (.returns ⟨"LFoo;", none, .kStatusResolved, none, 0, 1⟩,
       [(stringHash "LFoo;",
         ⟨"LFoo;", none, .kStatusResolved, none, 0, 1⟩)]) ∧
    defineClassInsert 6
      [(stringHash "LFoo;", ⟨"LFoo;", none, .kStatusResolved, none, 0, 1⟩)]
      ⟨"LFoo;", none, .kStatusLoaded, none, 6, 2⟩ =
      (.returns ⟨"LFoo;", none, .kStatusResolved, none, 0, 1⟩,
       [(stringHash "LFoo;",
         ⟨"LFoo;", none, .kStatusResolved, none, 0, 1⟩)]) := by
  have h := (insertClass_idempotent_define []
    ⟨"LFoo;", none, .kStatusResolved, none, 0, 1⟩
    ⟨"LFoo;", none, .kStatusLoaded, none, 6, 2⟩ 5 6).2.2
    rfl rfl (by rfl) (by decide)
  exact h

/-- C5: a class whose status is Error makes every subsequent
resolution attempt (EnsureResolved, the entry checks of
InitializeClass) re-run no linking step: the call returns at once with
a fresh NoClassDefFoundError — or an exception of the recorded
verify-error class when one is recorded — and the class, with its
status, is left unchanged. -/
theorem erroneous_class_resolution_rethrows (c : RClass) (tid : Nat)
    (herr : isErroneousStatus c.status = true) :
    ensureResolved tid c = (.throws (throwEarlierClassFailure c), c) ∧
    initializeClassEntry c =
      (.done false (some (throwEarlierClassFailure c)), c) ∧
    (∀ ve, c.verifyErrorClass = some ve →
      throwEarlierClassFailure c =
        { exceptionClass := ve, detail := c.descriptor }) ∧
    (c.verifyErrorClass = none →
      throwEarlierClassFailure c =
        { exceptionClass := "Ljava/lang/NoClassDefFoundError;",
          detail := c.descriptor }) ∧
    (ensureResolved tid c).2.status = .kStatusError := by
  have hstat : c.status = .kStatusError := by
    simpa [isErroneousStatus] using herr
  refine ⟨?_, ?_, ?_, ?_, ?_⟩
  · simp [ensureResolved, isResolvedStatus, isErroneousStatus, statusRank,
      hstat]
  · simp [initializeClassEntry, isErroneousStatus, hstat]
  · intro ve hve
    simp [throwEarlierClassFailure, hve]
  · intro hnone
    simp [throwEarlierClassFailure, hnone]
  · simp [ensureResolved, isResolvedStatus, isErroneousStatus, statusRank,
      hstat]

/-- Witness for C5: an erroneous class with a recorded verify-error
class rethrows an exception of that recorded type, unchanged in
status. -/
theorem erroneous_class_resolution_rethrows_witness :
    ensureResolved 9 ⟨"LBad;", none, .kStatusError,
        some "Ljava/lang/VerifyError;", 3, 7⟩ =
      (.throws { exceptionClass := "Ljava/lang/VerifyError;",
                 detail := "LBad;" },
       ⟨"LBad;", none, .kStatusError, some "Ljava/lang/VerifyError;", 3, 7⟩) ∧
    initializeClassEntry ⟨"LBad;", none, .kStatusError,
        some "Ljava/lang/VerifyError;", 3, 7⟩ =
      (.done false (some { exceptionClass := "Ljava/lang/VerifyError;",
                           detail := "LBad;" }),
       ⟨"LBad;", none, .kStatusError, some "Ljava/lang/VerifyError;", 3,
        7⟩) := by
  have h := erroneous_class_resolution_rethrows
    ⟨"LBad;", none, .kStatusError, some "Ljava/lang/VerifyError;", 3, 7⟩
    9 (by decide)
  exact ⟨h.1, h.2.1⟩

/-- C6: an exception escaping a static initializer is wrapped in an
ExceptionInInitializerError with the original as cause unless it is
already a subtype of Error, in which case it passes through unwrapped;
in both cases the class status becomes Error and InitializeClass
reports failure. -/
theorem initializer_exception_wrapping (e : JThrowable) (c : RClass) :
    (isErrorInstance e = false →
      initializeClassEpilogue (some e) c =
        ({ c with status := .kStatusError }, false,
         some (.exceptionInInitializerError e))) ∧
    (isErrorInstance e = true →
      initializeClassEpilogue (some e) c =
        ({ c with status := .kStatusError }, false, some e)) ∧
    (initializeClassEpilogue (some e) c).2.1 = false ∧
    (initializeClassEpilogue (some e) c).1.status = .kStatusError := by
  refine ⟨?_, ?_, ?_, ?_⟩
  · intro h
    simp [initializeClassEpilogue, wrapExceptionInInitializer, h]
  · intro h
    simp [initializeClassEpilogue, wrapExceptionInInitializer, h]
  · simp [initializeClassEpilogue]
  · simp [initializeClassEpilogue]

/-- Witness for C6: a plain runtime exception from a static
initializer is wrapped; an Error-subtype exception passes through
unwrapped; in both cases the class ends in Error and the call
fails. -/
theorem initializer_exception_wrapping_witness :
    initializeClassEpilogue (some (.plain false 4))
      ⟨"LX;", none, .kStatusInitializing, none, 2, 11⟩ =
      (⟨"LX;", none, .kStatusError, none, 2, 11⟩, false,
       some (.exceptionInInitializerError (.plain false 4))) ∧
    initializeClassEpilogue (some (.plain true 5))
      ⟨"LX;", none, .kStatusInitializing, none, 2, 11⟩ =
      (⟨"LX;", none, .kStatusError, none, 2, 11⟩, false,
       some (.plain true 5)) := by
  refine ⟨?_, ?_⟩
  · exact (initializer_exception_wrapping (.plain false 4)
      ⟨"LX;", none, .kStatusInitializing, none, 2, 11⟩).1 (by decide)
  · exact (initializer_exception_wrapping (.plain true 5)
      ⟨"LX;", none, .kStatusInitializing, none, 2, 11⟩).2.1 (by decide)

/- ===================================================================
   C8: LookupClass and the bootstrap-image fallback.
   =================================================================== -/

theorem lookup_mono_append (d : String) (loader : Option Nat) (h : Nat)
    (t e : ClassTable) (r : RClass)
    (hl : lookupClassFromTableLocked d loader h t = some r) :
    lookupClassFromTableLocked d loader h (t ++ e) = some r := by
  rw [lookupClassFromTableLocked_append, hl]

theorem moveFold_mono (ks : List RClass) :
    ∀ (t : ClassTable) (d : String) (loader : Option Nat) (h : Nat)
      (r : RClass),
      lookupClassFromTableLocked d loader h t = some r →
      lookupClassFromTableLocked d loader h
        (ks.foldl (fun t2 k =>
          match lookupClassFromTableLocked k.descriptor none
              (stringHash k.descriptor) t2 with
          | some _ => t2
          | none => t2 ++ [(stringHash k.descriptor, k)]) t) = some r := by
  induction ks with
  | nil => intro t d loader h r hl; exact hl
  | cons k ks2 ih =>
    intro t d loader h r hl
    simp only [List.foldl_cons]
    cases hk : lookupClassFromTableLocked k.descriptor none
        (stringHash k.descriptor) t with
    | some x =>
      simp only []
      exact ih t d loader h r hl
    | none =>
      simp only []
      exact ih _ d loader h r (lookup_mono_append d loader h t _ r hl)

theorem moveFold_covers (ks : List RClass)
    (hload : ∀ k ∈ ks, k.loader = none) :
    ∀ (t : ClassTable) (k : RClass), k ∈ ks →
      lookupClassFromTableLocked k.descriptor none (stringHash k.descriptor)
        (ks.foldl (fun t2 k2 =>
          match lookupClassFromTableLocked k2.descriptor none
              (stringHash k2.descriptor) t2 with
          | some _ => t2
          | none => t2 ++ [(stringHash k2.descriptor, k2)]) t) ≠ none := by
  induction ks with
  | nil => intro t k hk; simp at hk
  | cons k0 ks2 ih =>
    intro t k hk
    simp only [List.foldl_cons]
    rcases List.mem_cons.mp hk with heq | hmem
    · subst heq
      cases hk0 : lookupClassFromTableLocked k.descriptor none
          (stringHash k.descriptor) t with
      | some x =>
        simp only []
        rw [moveFold_mono ks2 t k.descriptor none (stringHash k.descriptor)
          x hk0]
        simp
      | none =>
        simp only []
        have hhit : lookupClassFromTableLocked k.descriptor none
            (stringHash k.descriptor)
            (t ++ [(stringHash k.descriptor, k)]) = some k := by
          rw [lookupClassFromTableLocked_append, hk0]
          exact lookupClassFromTableLocked_single_hit k.descriptor none
            (stringHash k.descriptor) k rfl
            (hload k (List.mem_cons_self k ks2))
        rw [moveFold_mono ks2 _ k.descriptor none (stringHash k.descriptor)
          k hhit]
        simp
    · cases hk0 : lookupClassFromTableLocked k0.descriptor none
          (stringHash k0.descriptor) t with
      | some x =>
        simp only []
        exact ih (fun k2 hk2 => hload k2 (List.mem_cons_of_mem k0 hk2)) t
          k hmem
      | none =>
        simp only []
        exact ih (fun k2 hk2 => hload k2 (List.mem_cons_of_mem k0 hk2)) _
          k hmem

theorem moveImageClasses_covers (st : ClassLinkerState)
    (hreq : st.imageLookupRequired = true)
    (hload : ∀ k ∈ st.imageClasses, k.loader = none) :
    (moveImageClassesToClassTable st).imageLookupRequired = false ∧
    ∀ k ∈ st.imageClasses,
      lookupClassFromTableLocked k.descriptor none (stringHash k.descriptor)
        (moveImageClassesToClassTable st).classTable ≠ none := by
  unfold moveImageClassesToClassTable
  rw [if_neg (by simp [hreq])]
  refine ⟨rfl, ?_⟩
  intro k hk
  exact moveFold_covers st.imageClasses hload st.classTable k hk

/-- C8: a LookupClass hit in the primary class table is returned
directly; a miss with a non-null loader, or once the image-lookup flag
is cleared, returns null with no fallback; a miss with the bootstrap
loader while the flag is set scans the bootstrap image, inserting a
found class into the primary table, and a fallback miss increments the
failure counter — once the counter exceeds kMaxFailedDexCacheLookups
the entire bootstrap image is migrated into the primary table and the
flag is cleared, after which the fallback path is no longer taken. -/
theorem lookupClass_image_fallback (d : String) (loader : Option Nat)
    (st : ClassLinkerState) :
    (∀ r, lookupClassFromTableLocked d loader (stringHash d) st.classTable =
        some r →
      lookupClass d loader st = (some r, st)) ∧
    (lookupClassFromTableLocked d loader (stringHash d) st.classTable =
        none → loader ≠ none →
      lookupClass d loader st = (none, st)) ∧
    (lookupClassFromTableLocked d loader (stringHash d) st.classTable =
        none → st.imageLookupRequired = false →
      lookupClass d loader st = (none, st)) ∧
    (lookupClassFromTableLocked d none (stringHash d) st.classTable =
        none → st.imageLookupRequired = true →
      ∀ r, lookupClassFromImage d st.imageClasses = some r →
        lookupClass d none st =
          (some r, { st with classTable :=
            (insertClass d r (stringHash d) st.classTable).2 })) ∧
    (lookupClassFromTableLocked d none (stringHash d) st.classTable =
        none → st.imageLookupRequired = true →
      lookupClassFromImage d st.imageClasses = none →
      ((st.failedLookups + 1 ≤ kMaxFailedDexCacheLookups →
        lookupClass d none st =
          (none, { st with failedLookups := st.failedLookups + 1 })) ∧
       (st.failedLookups + 1 > kMaxFailedDexCacheLookups →
        lookupClass d none st =
          (none, moveImageClassesToClassTable
            { st with failedLookups := st.failedLookups + 1 }) ∧
        (moveImageClassesToClassTable
          { st with failedLookups := st.failedLookups + 1
            }).imageLookupRequired = false ∧
        ((∀ k ∈ st.imageClasses, k.loader = none) →
          ∀ k ∈ st.imageClasses,
            lookupClassFromTableLocked k.descriptor none
              (stringHash k.descriptor)
              (moveImageClassesToClassTable
                { st with failedLookups := st.failedLookups + 1
                  }).classTable ≠ none)))) := by
  refine ⟨?_, ?_, ?_, ?_, ?_⟩
  · intro r hr
    simp [lookupClass, hr]
  · intro hmiss hloader
    simp [lookupClass, hmiss, hloader]
  · intro hmiss hreq
    simp only [lookupClass, hmiss]
    rw [if_pos (Or.inr hreq)]
  · intro hmiss hreq r hr
    simp only [lookupClass, hmiss]
    rw [if_neg (by simp [hreq])]
    rw [hr]
  · intro hmiss hreq himg
    constructor
    · intro hle
      simp only [lookupClass, hmiss]
      rw [if_neg (by simp [hreq])]
      rw [himg]
      simp only []
      rw [if_neg (by simp [kMaxFailedDexCacheLookups] at hle ⊢; omega)]
    · intro hgt
      refine ⟨?_, ?_, ?_⟩
      · simp only [lookupClass, hmiss]
        rw [if_neg (by simp [hreq])]
        rw [himg]
        simp only []
        rw [if_pos (by simp [kMaxFailedDexCacheLookups] at hgt ⊢; omega)]
      · simp [moveImageClassesToClassTable, hreq]
      · intro hload
        exact (moveImageClasses_covers
          { st with failedLookups := st.failedLookups + 1 } (by simp [hreq])
          hload).2

theorem lookupClass_image_fallback_witness :
    lookupClass "LMiss;" none
      ⟨[], true, 1000,
        [⟨"LImg;", none, ClassStatus.kStatusInitialized, none, 0, 7⟩]⟩ =
      (none, moveImageClassesToClassTable
        ⟨[], true, 1001,
          [⟨"LImg;", none, ClassStatus.kStatusInitialized, none, 0, 7⟩]⟩) ∧
    (moveImageClassesToClassTable
      ⟨[], true, 1001,
        [⟨"LImg;", none, ClassStatus.kStatusInitialized, none, 0, 7⟩]
        ⟩).imageLookupRequired = false ∧
    lookupClassFromTableLocked "LImg;" none (stringHash "LImg;")
      (moveImageClassesToClassTable
        ⟨[], true, 1001,
          [⟨"LImg;", none, ClassStatus.kStatusInitialized, none, 0, 7⟩]
          ⟩).classTable ≠ none := by
  have h5 := (lookupClass_image_fallback "LMiss;" none
    ⟨[], true, 1000,
      [⟨"LImg;", none, ClassStatus.kStatusInitialized, none, 0,
        7⟩]⟩).2.2.2.2 (by decide) rfl (by decide)
  have hgt := h5.2 (by decide)
  exact ⟨hgt.1, hgt.2.1,
    hgt.2.2 (by decide)
      ⟨"LImg;", none, ClassStatus.kStatusInitialized, none, 0, 7⟩
      (by decide)⟩
